import Mathlib

/-!
ResourceEventComponent.cpp: event queueing and dispatch

A shallow embedding of `ResourceEventComponent` and
`ResourceEventManagerComponent` (citizen-resources-core).

* `std::string` is a Lean `String`, read as a sequence of `char` units.
* `bool eventCanceled` is a local of one `TriggerEvent` activation.  The
  locals of the live activations form `State.frames`; the address of a local
  is its index there, and `m_eventCancelationStack` holds such addresses.
* Callbacks connected to `OnTriggerEvent` are programs (`Prog`) over the
  operations a callback has on this component: writing and reading the flag
  it was handed, `TriggerEvent`, the two `QueueEvent`s, failing, and catching
  a failure.
* `State.log` is a ghost record of calls, listener invocations and flag
  writes, `State.queueCalls` a ghost record of the calls of the two
  `QueueEvent`s; `State.console` collects the lines given to `trace`.
-/

namespace fx

/-- The `EventData` record held in the queues. -/
structure EventData where
  eventName : String
  eventPayload : String
  eventSource : String
  deriving DecidableEq, Repr

/-- Identity of a callback connected to an `OnTriggerEvent` signal: the
`i`-th callback of the manager, or the `i`-th callback of the event component
of the resource called `name`. -/
inductive ListenerId where
  | global (i : Nat)
  | resource (name : String) (i : Nat)
  deriving DecidableEq, Repr

/-- Ghost observations. `p` is always the address of a cancellation flag. -/
inductive LogEntry where
  | call (ev : EventData) (p : Nat)
  | invoke (l : ListenerId) (ev : EventData) (p : Nat)
  | write (p : Nat) (b : Bool)
  | notify (i : Nat) (ev : EventData) (queue : List EventData)
  deriving DecidableEq, Repr

/-- Ghost record of one call of `QueueEvent`: of the manager, or of the
event component of the resource called `name`. -/
inductive QueueCall where
  | manager (ev : EventData)
  | resource (name : String) (ev : EventData)
  deriving DecidableEq, Repr

/-- Body of a callback connected to `OnTriggerEvent`. A failure (`throw`, or
a failed `TriggerEvent` call) leaves every enclosing call up to the nearest
`tryCatch`: `tryCatch body k` runs `body` as a `try` block and goes on with
`k true` when the block completes, with `k false` when it failed. -/
inductive Prog where
  | ret : Prog
  | throw : Prog
  | tryCatch (body : Prog) (k : Bool → Prog) : Prog
  | setCanceled (b : Bool) (k : Prog) : Prog
  | getCanceled (k : Bool → Prog) : Prog
  | triggerEvent (ev : EventData) (k : Bool → Prog) : Prog
  | queueEvent (ev : EventData) (k : Prog) : Prog
  | resourceQueueEvent (resource : String) (ev : EventData) (k : Prog) : Prog

/-- A callback of an `OnTriggerEvent` signal: name, payload and source come
in `EventData`, the `bool*` is the address the body is run at. -/
abbrev Listener := EventData → Prog

/-- The part of `ResourceEventComponent` that does not change during
dispatch: the callbacks connected to its `OnTriggerEvent`. -/
structure ResourceEventComponent where
  OnTriggerEvent : List Listener

/-- A `Resource` as seen from this file: its name and its event component,
which `GetComponent` may not find. -/
structure Resource where
  name : String
  eventComponent : Option ResourceEventComponent

/-- The connections of a `ResourceEventManagerComponent` and the resources
of its `m_manager`, in `ForAllResources` order: the callbacks connected to
`OnTriggerEvent` in registration order, the number of callbacks connected to
`OnQueueEvent`, and the resources. -/
structure Manager where
  OnTriggerEvent : List Listener
  OnQueueEvent : Nat
  resources : List Resource

/-- Mutable state. -/
structure State where
  m_eventQueue : List EventData
  m_eventCancelationStack : List Nat
  m_wasLastEventCanceled : Bool
  localQueues : List (String × List EventData)
  frames : List Bool
  log : List LogEntry
  console : List String
  queueCalls : List QueueCall
  deriving DecidableEq, Repr

/-- Outcome of a call: normal return, a failure that left the call with the
state as it was then, or no return within the given bound. -/
inductive Result (α : Type) where
  | ok (val : α) (st : State) : Result α
  | thrown (st : State) : Result α
  | diverge : Result α
  deriving DecidableEq, Repr

/-- `static inline bool IsServer()`: the build flag `IS_FXSERVER`. -/
def IsServer (IS_FXSERVER : Bool) : Bool :=
  if IS_FXSERVER then true else false

/-- What `printf`-style `%s` prints of `str.c_str()`: the characters before
the first NUL. -/
def c_str (str : String) : String :=
  String.mk (str.data.takeWhile fun c => c ≠ Char.ofNat 0)

/-- `ResourceEventComponent::QueueEvent` of the component of the resource
called `resource`: a push on its own `m_eventQueue`. A resource that has no
entry in `localQueues` yet has an empty queue. -/
def ResourceEventComponent.QueueEvent (resource : String) (ev : EventData) (s : State) : State :=
  { s with
      localQueues :=
        if (s.localQueues.lookup resource).isSome then
          s.localQueues.map fun q => if q.1 = resource then (q.1, q.2 ++ [ev]) else q
        else s.localQueues ++ [(resource, [ev])],
      queueCalls := s.queueCalls ++ [QueueCall.resource resource ev] }

/-- Modelled from the spec: the signal `OnQueueEvent` and the callbacks
connected to it are not in the source; the spec has them as notification-only
hooks, invoked once each in registration order. `n` callbacks are connected;
each invocation is recorded with the queue it can observe. -/
def OnQueueEvent (n : Nat) (ev : EventData) (s : State) : State :=
  { s with log := s.log ++ (List.range n).map fun i => LogEntry.notify i ev s.m_eventQueue }

/-- `ResourceEventManagerComponent::QueueEvent`. -/
def QueueEvent (m : Manager) (ev : EventData) (s : State) : State :=
  let s1 := { s with console := s.console ++ ["queue event " ++ c_str ev.eventName ++ "\n"] }
  let s2 := { s1 with m_eventQueue := s1.m_eventQueue ++ [ev],
                      queueCalls := s1.queueCalls ++ [QueueCall.manager ev] }
  OnQueueEvent m.OnQueueEvent ev s2

/-- Run one callback body with `eventCanceled = p`; `trigger` is the
manager's `TriggerEvent`. -/
def runProg (m : Manager) (trigger : EventData → State → Result Bool) (p : Nat) :
    Prog → State → Result Unit
  | .ret, s => .ok () s
  | .throw, s => .thrown s
  | .tryCatch body k, s =>
      match runProg m trigger p body s with
      | .ok _ s1 => runProg m trigger p (k true) s1
      | .thrown s1 => runProg m trigger p (k false) s1
      | .diverge => .diverge
  | .setCanceled b k, s =>
      runProg m trigger p k { s with frames := s.frames.set p b, log := s.log ++ [.write p b] }
  | .getCanceled k, s => runProg m trigger p (k (s.frames.getD p false)) s
  | .triggerEvent ev k, s =>
      match trigger ev s with
      | .ok r s1 => runProg m trigger p (k r) s1
      | .thrown s1 => .thrown s1
      | .diverge => .diverge
  | .queueEvent ev k, s => runProg m trigger p k (QueueEvent m ev s)
  | .resourceQueueEvent r ev k, s =>
      runProg m trigger p k (ResourceEventComponent.QueueEvent r ev s)

/-- Modelled from the spec: `fwEvent::operator()` is not in the source; the
spec has it invoke every connected callback, in registration order, none
skipped. `i` is the position of the first callback of `ls`. -/
def OnTriggerEvent (m : Manager) (trigger : EventData → State → Result Bool)
    (mk : Nat → ListenerId) (ev : EventData) (p : Nat) :
    Nat → List Listener → State → Result Unit
  | _, [], s => .ok () s
  | i, l :: ls, s =>
      match runProg m trigger p (l ev) { s with log := s.log ++ [.invoke (mk i) ev p] } with
      | .ok _ s1 => OnTriggerEvent m trigger mk ev p (i + 1) ls s1
      | .thrown s1 => .thrown s1
      | .diverge => .diverge

/-- `ResourceEventComponent::HandleTriggerEvent`. -/
def HandleTriggerEvent (m : Manager) (trigger : EventData → State → Result Bool)
    (resource : String) (c : ResourceEventComponent) (ev : EventData) (p : Nat)
    (s : State) : Result Unit :=
  OnTriggerEvent m trigger (ListenerId.resource resource) ev p 0 c.OnTriggerEvent s

/-- Modelled from the spec: `ResourceManager::ForAllResources` is not in the
source; the spec has it visit every registered resource in the manager's
iteration order. The body is the lambda of `TriggerEvent`. -/
def ForAllResources (m : Manager) (trigger : EventData → State → Result Bool)
    (ev : EventData) (p : Nat) : List Resource → State → Result Unit
  | [], s => .ok () s
  | resource :: rest, s =>
      match resource.eventComponent with
      | none =>
          ForAllResources m trigger ev p rest
            { s with console :=
                s.console ++ ["no event component for resource " ++ c_str resource.name ++ "\n"] }
      | some eventComponent =>
          match HandleTriggerEvent m trigger resource.name eventComponent ev p s with
          | .ok _ s1 => ForAllResources m trigger ev p rest s1
          | .thrown s1 => .thrown s1
          | .diverge => .diverge

/-- `ResourceEventManagerComponent::TriggerEvent`. The first argument
bounds the nesting of `TriggerEvent` calls made from callbacks. A failure
unwinds the activation (its local is gone) without reaching `pop`. -/
def TriggerEvent (m : Manager) : Nat → EventData → State → Result Bool
  | 0, _, _ => .diverge
  | fuel + 1, ev, s =>
      let p := s.frames.length
      let s1 : State :=
        { s with frames := s.frames ++ [false],
                 m_eventCancelationStack := p :: s.m_eventCancelationStack,
                 log := s.log ++ [.call ev p] }
      match OnTriggerEvent m (TriggerEvent m fuel) ListenerId.global ev p 0 m.OnTriggerEvent s1 with
      | .diverge => .diverge
      | .thrown s2 => .thrown { s2 with frames := s2.frames.take p }
      | .ok _ s2 =>
          match ForAllResources m (TriggerEvent m fuel) ev p m.resources s2 with
          | .diverge => .diverge
          | .thrown s3 => .thrown { s3 with frames := s3.frames.take p }
          | .ok _ s3 =>
              let eventCanceled := s3.frames.getD p false
              .ok (!eventCanceled)
                { s3 with m_eventCancelationStack := s3.m_eventCancelationStack.tail,
                          m_wasLastEventCanceled := eventCanceled,
                          frames := s3.frames.take p }

/-- `ResourceEventManagerComponent::Tick`. `depth` bounds callback nesting,
the next argument bounds the iterations of the `while` loop. -/
def Tick (m : Manager) (depth : Nat) : Nat → State → Result Unit
  | 0, s =>
      match s.m_eventQueue with
      | [] => .ok () s
      | _ :: _ => .diverge
  | n + 1, s =>
      match s.m_eventQueue with
      | [] => .ok () s
      | event :: rest =>
          match TriggerEvent m depth event { s with m_eventQueue := rest } with
          | .ok _ s1 => Tick m depth n s1
          | .thrown s1 => .thrown s1
          | .diverge => .diverge

/-! ## Reading the ghost log -/

/-- Every flag address mentioned by the entry is at least `n`. -/
def LogEntry.addrGE (n : Nat) : LogEntry → Prop
  | .call _ q => n ≤ q
  | .invoke _ _ q => n ≤ q
  | .write q _ => n ≤ q
  | .notify _ _ _ => True

/-- Value of the flag at address `p` after the writes recorded in the log,
starting from `v`. -/
def lastWrite (p : Nat) : List LogEntry → Bool → Bool
  | [], v => v
  | e :: es, v =>
      lastWrite p es (match e with
        | .write q b => if q = p then b else v
        | _ => v)

/-- The listener invocations that were handed the flag at address `p`. -/
def direct (p : Nat) (log : List LogEntry) : List LogEntry :=
  log.filter fun e =>
    match e with
    | .invoke _ _ q => decide (q = p)
    | _ => false

/-- The `TriggerEvent` calls whose flag is at address `p`. -/
def topCalls (p : Nat) (log : List LogEntry) : List LogEntry :=
  log.filter fun e =>
    match e with
    | .call _ q => decide (q = p)
    | _ => false

/-- The invocations `fwEvent::operator()` makes for `n` connected callbacks. -/
def invocations (mk : Nat → ListenerId) (ev : EventData) (p : Nat) (n : Nat) : List LogEntry :=
  (List.range n).map fun i => LogEntry.invoke (mk i) ev p

/-- The invocations `ForAllResources` makes: for each resource that has an
event component, one per callback of that component. -/
def resourceInvocations (ev : EventData) (p : Nat) (rs : List Resource) : List LogEntry :=
  rs.flatMap fun r =>
    match r.eventComponent with
    | none => []
    | some c => invocations (ListenerId.resource r.name) ev p c.OnTriggerEvent.length

/-- The invocations one `TriggerEvent` call is to make with its own flag. -/
def Manager.invocations (m : Manager) (ev : EventData) (p : Nat) : List LogEntry :=
  fx.invocations ListenerId.global ev p m.OnTriggerEvent.length ++ resourceInvocations ev p m.resources

/-- What a stretch of dispatch run with the flag at `p` does to the frames
and the log: `new` is appended, no flag below `p` is touched, the flag at `p`
holds the last value written to it, no `TriggerEvent` call uses address `p`. -/
structure Grows (p : Nat) (s t : State) (new : List LogEntry) : Prop where
  log : t.log = s.log ++ new
  len : t.frames.length = s.frames.length
  pre : t.frames.take p = s.frames.take p
  flag : t.frames.getD p false = lastWrite p new (s.frames.getD p false)
  addr : ∀ e ∈ new, e.addrGE p
  calls : topCalls p new = []

/-- Outcome of a stretch of dispatch started in `s` with the flag at `p`;
`D` are the invocations it makes with that flag when it completes, and it has
made the first of them when it fails. Frames of failed calls may be left on
the cancellation stack. -/
def BodySpec (p : Nat) (D : List LogEntry) (s : State) : Result Unit → Prop
  | .ok _ t => (∃ extra, t.m_eventCancelationStack = extra ++ s.m_eventCancelationStack) ∧
      ∃ new, Grows p s t new ∧ direct p new = D
  | .thrown t => (∃ extra, t.m_eventCancelationStack = extra ++ s.m_eventCancelationStack) ∧
      ∃ new, Grows p s t new ∧ direct p new <+: D
  | .diverge => True

/-- Outcome of one `TriggerEvent` call started in `s`. -/
def CallSpec (m : Manager) (ev : EventData) (s : State) : Result Bool → Prop
  | .ok b t => t.frames = s.frames ∧
      (∃ extra, t.m_eventCancelationStack = extra ++ s.m_eventCancelationStack) ∧
      t.m_wasLastEventCanceled = !b ∧
      ∃ new, t.log = s.log ++ LogEntry.call ev s.frames.length :: new ∧
        (∀ e ∈ new, e.addrGE s.frames.length) ∧
        b = !lastWrite s.frames.length new false ∧
        direct s.frames.length new = m.invocations ev s.frames.length ∧
        topCalls s.frames.length new = []
  | .thrown t => t.frames = s.frames ∧
      (∃ extra, t.m_eventCancelationStack = extra ++ s.frames.length :: s.m_eventCancelationStack) ∧
      ∃ new, t.log = s.log ++ LogEntry.call ev s.frames.length :: new ∧
        (∀ e ∈ new, e.addrGE s.frames.length) ∧
        topCalls s.frames.length new = []
  | .diverge => True

/-! ## Lifecycle handlers and the resource tick -/

/-- Model of `msgpack::packer::pack_array` (MessagePack array header):
fixarray, array 16 or array 32; the count is a `uint32_t`. -/
def pack_array (n : Nat) : List Char :=
  if n < 16 then [Char.ofNat (0x90 + n)]
  else if n < 65536 then [Char.ofNat 0xdc, Char.ofNat (n / 256), Char.ofNat (n % 256)]
  else [Char.ofNat 0xdd, Char.ofNat (n / 16777216 % 256), Char.ofNat (n / 65536 % 256),
        Char.ofNat (n / 256 % 256), Char.ofNat (n % 256)]

/-- Model of `msgpack::packer::pack` on a `std::string` (MessagePack str
header fixstr, str 8, str 16 or str 32, then the characters); the size is a
`uint32_t`. -/
def pack (str : String) : List Char :=
  let n := str.length
  (if n < 32 then [Char.ofNat (0xa0 + n)]
   else if n < 256 then [Char.ofNat 0xd9, Char.ofNat n]
   else if n < 65536 then [Char.ofNat 0xda, Char.ofNat (n / 256), Char.ofNat (n % 256)]
   else [Char.ofNat 0xdb, Char.ofNat (n / 16777216 % 256), Char.ofNat (n / 65536 % 256),
         Char.ofNat (n / 256 % 256), Char.ofNat (n % 256)]) ++ str.data

/-- Decoder side of the codec: read a str header and that many characters. -/
def unpack_str : List Char → Option (String × List Char)
  | [] => none
  | c :: rest =>
      let take := fun (n : Nat) (cs : List Char) =>
        if n ≤ cs.length then some (String.mk (cs.take n), cs.drop n) else none
      if 0xa0 ≤ c.toNat ∧ c.toNat < 0xc0 then take (c.toNat - 0xa0) rest
      else if c.toNat = 0xd9 then
        match rest with
        | a :: cs => take a.toNat cs
        | _ => none
      else if c.toNat = 0xda then
        match rest with
        | a :: b :: cs => take (a.toNat * 256 + b.toNat) cs
        | _ => none
      else if c.toNat = 0xdb then
        match rest with
        | a :: b :: d :: e :: cs =>
            take (a.toNat * 16777216 + b.toNat * 65536 + d.toNat * 256 + e.toNat) cs
        | _ => none
      else none

/-- Decoder side of the codec: `n` strings, nothing left over. -/
def unpack_strs : Nat → List Char → Option (List String)
  | 0, [] => some []
  | 0, _ :: _ => none
  | n + 1, cs =>
      match unpack_str cs with
      | none => none
      | some (str, rest) =>
          match unpack_strs n rest with
          | none => none
          | some strs => some (str :: strs)

/-- Decoder side of the codec: a fixarray of strings. -/
def unpack (payload : String) : Option (List String) :=
  match payload.data with
  | [] => none
  | c :: rest =>
      if 0x90 ≤ c.toNat ∧ c.toNat < 0xa0 then unpack_strs (c.toNat - 0x90) rest else none

/-- The buffer both lifecycle handlers build: `pack_array(1)` then
`pack(m_resource->GetName())`, copied into a `std::string`. -/
def lifecyclePayload (name : String) : String :=
  String.mk (pack_array 1 ++ pack name)

/-- The `OnStart` handler connected in `ResourceEventComponent::AttachToObject`. -/
def OnStart (IS_FXSERVER : Bool) (m : Manager) (name : String) (s : State) : State :=
  let event := lifecyclePayload name
  let s1 := QueueEvent m
    ⟨"on" ++ (if IsServer IS_FXSERVER then "Server" else "Client") ++ "ResourceStart", event, ""⟩ s
  QueueEvent m ⟨"onResourceStart", event, ""⟩ s1

/-- The `OnStop` handler connected in `ResourceEventComponent::AttachToObject`. -/
def OnStop (IS_FXSERVER : Bool) (m : Manager) (name : String) (s : State) : State :=
  let event := lifecyclePayload name
  let s1 := QueueEvent m
    ⟨"on" ++ (if IsServer IS_FXSERVER then "Server" else "Client") ++ "ResourceStop", event, ""⟩ s
  QueueEvent m ⟨"onResourceStop", event, ""⟩ s1

/-- The local `m_eventQueue` of the component of the resource called `resource`. -/
def State.localQueue (s : State) (resource : String) : List EventData :=
  (s.localQueues.lookup resource).getD []

/-- The callback body never calls the manager's `QueueEvent`. -/
def Prog.noQueue : Prog → Bool
  | .ret => true
  | .throw => true
  | .tryCatch body k => body.noQueue && (k true).noQueue && (k false).noQueue
  | .setCanceled _ k => k.noQueue
  | .getCanceled k => (k true).noQueue && (k false).noQueue
  | .triggerEvent _ k => (k true).noQueue && (k false).noQueue
  | .queueEvent _ _ => false
  | .resourceQueueEvent _ _ k => k.noQueue

/-- No trigger listener, global or of a resource, enqueues on the manager. -/
def Manager.noQueue (m : Manager) : Prop :=
  (∀ l ∈ m.OnTriggerEvent, ∀ ev, (l ev).noQueue = true) ∧
  ∀ r ∈ m.resources, ∀ c, r.eventComponent = some c →
    ∀ l ∈ c.OnTriggerEvent, ∀ ev, (l ev).noQueue = true

/-- The first `k` turns of the `while` loop of `Tick` (fewer when the queue
runs empty before): the state the loop is in after them, when every
`TriggerEvent` call of these turns has returned. -/
def TickTurns (m : Manager) (depth : Nat) : Nat → State → Result Unit
  | 0, s => .ok () s
  | n + 1, s =>
      match s.m_eventQueue with
      | [] => .ok () s
      | event :: rest =>
          match TriggerEvent m depth event { s with m_eventQueue := rest } with
          | .ok _ s1 => TickTurns m depth n s1
          | .thrown s1 => .thrown s1
          | .diverge => .diverge

/-- The outcome, if there is one, has the global queue of `s`. -/
def KeepsQueue {α : Type} (s : State) : Result α → Prop
  | .ok _ t => t.m_eventQueue = s.m_eventQueue
  | .thrown t => t.m_eventQueue = s.m_eventQueue
  | .diverge => True

/-- The state without the lines given to `trace`. -/
def State.quiet (s : State) : State := { s with console := [] }

/-- The outcome without the lines given to `trace`. -/
def Result.quiet {α : Type} : Result α → Result α
  | .ok v t => .ok v t.quiet
  | .thrown t => .thrown t.quiet
  | .diverge => .diverge

/-- The manager with the resources that have no event component removed
from its resource list. -/
def Manager.withoutMissing (m : Manager) : Manager :=
  { m with resources := m.resources.filter fun r => r.eventComponent.isSome }

/-- The states `s` and `t` agree except, possibly, in the values of the flags
at addresses below `n`; those are flags of activations that were live when a
call with its flag at `n` or above was made. -/
structure SameAbove (n : Nat) (s t : State) : Prop where
  queue : t.m_eventQueue = s.m_eventQueue
  stack : t.m_eventCancelationStack = s.m_eventCancelationStack
  last : t.m_wasLastEventCanceled = s.m_wasLastEventCanceled
  locals : t.localQueues = s.localQueues
  log : t.log = s.log
  console : t.console = s.console
  ghost : t.queueCalls = s.queueCalls
  len : t.frames.length = s.frames.length
  above : t.frames.drop n = s.frames.drop n
  le : n ≤ s.frames.length

/-- Two outcomes of the same kind, with the same value, in states that agree
except in the flags below `n`. -/
def Result.sameAbove {α : Type} (n : Nat) : Result α → Result α → Prop
  | .ok a s, .ok b t => a = b ∧ SameAbove n s t
  | .thrown s, .thrown t => SameAbove n s t
  | .diverge, .diverge => True
  | _, _ => False

/-- No trigger listener is connected, neither to the manager nor to the
event component of any resource. -/
def Manager.noListeners (m : Manager) : Prop :=
  m.OnTriggerEvent = [] ∧
  ∀ r ∈ m.resources, ∀ c, r.eventComponent = some c → c.OnTriggerEvent = []

/-- The records the manager's `QueueEvent` was called with, in call order. -/
def managerCalls (cs : List QueueCall) : List EventData :=
  cs.filterMap fun c =>
    match c with
    | .manager ev => some ev
    | .resource _ _ => none

/-- The records `QueueEvent` of the component of the resource called
`resource` was called with, in call order. -/
def resourceCalls (resource : String) (cs : List QueueCall) : List EventData :=
  cs.filterMap fun c =>
    match c with
    | .manager _ => none
    | .resource name ev => if name = resource then some ev else none

/-- What a stretch of execution that pops nothing does to the queues and the
ghost records: `new` is appended to the log, `cs` to the record of the
`QueueEvent` calls; the global queue has grown at its tail by the records of
the calls of the manager's `QueueEvent`, the local queue of each resource by
the records of the calls of `QueueEvent` of its component. -/
structure Effect (s t : State) (new : List LogEntry) (cs : List QueueCall) : Prop where
  log : t.log = s.log ++ new
  ghost : t.queueCalls = s.queueCalls ++ cs
  queue : t.m_eventQueue = s.m_eventQueue ++ managerCalls cs
  locals : ∀ r, t.localQueue r = s.localQueue r ++ resourceCalls r cs

/-- The outcome, if there is one, is related to `s` by `Effect`. -/
def Effects {α : Type} (s : State) : Result α → Prop
  | .ok _ t => ∃ new cs, Effect s t new cs
  | .thrown t => ∃ new cs, Effect s t new cs
  | .diverge => True

/-- On every path through the callback body that completes there is a call
of the manager's `QueueEvent`. -/
def Prog.enqueues : Prog → Bool
  | .ret => false
  | .throw => false
  | .tryCatch body k => (body.enqueues || (k true).enqueues) && (k false).enqueues
  | .setCanceled _ k => k.enqueues
  | .getCanceled k => (k true).enqueues && (k false).enqueues
  | .triggerEvent _ k => (k true).enqueues && (k false).enqueues
  | .queueEvent _ _ => true
  | .resourceQueueEvent _ _ k => k.enqueues

/-- Some trigger listener, global or of a resource that has an event
component, calls the manager's `QueueEvent` for every event it handles. -/
def Manager.requeues (m : Manager) : Prop :=
  (∃ l ∈ m.OnTriggerEvent, ∀ ev, (l ev).enqueues = true) ∨
  ∃ r ∈ m.resources, ∃ c, r.eventComponent = some c ∧
    ∃ l ∈ c.OnTriggerEvent, ∀ ev, (l ev).enqueues = true

/-! ## Example configurations -/

/-- State of a freshly constructed manager with no resource queues. -/
def State.init : State := ⟨[], [], false, [], [], [], [], []⟩

/-- State inside a running dispatch: one activation is live, its flag (at
address 0) holds `true` and is on the cancellation stack. -/
def State.inDispatch : State := ⟨[], [0], false, [], [true], [], [], []⟩

/-- An event. -/
def exEvent : EventData := ⟨"x", "payload", "src"⟩

/-- A listener that writes `b` to the flag it is handed. -/
def setTo (b : Bool) : Listener := fun _ => .setCanceled b .ret

/-- A listener that does nothing. -/
def idle : Listener := fun _ => .ret

/-- A listener that fails. -/
def failing : Listener := fun _ => .throw

/-- Five trigger listeners, two global and three over two resources; the
second one cancels. Resource `b` has no event component. -/
def exMixed : Manager :=
  ⟨[idle, setTo true], 2, [⟨"a", some ⟨[idle]⟩⟩, ⟨"b", none⟩, ⟨"c", some ⟨[idle, idle]⟩⟩]⟩

/-- The state `TriggerEvent exMixed 1 exEvent State.init` returns with. -/
def exMixedFinal : State :=
  { State.init with
      m_wasLastEventCanceled := true,
      log := [LogEntry.call exEvent 0, LogEntry.invoke (ListenerId.global 0) exEvent 0,
        LogEntry.invoke (ListenerId.global 1) exEvent 0, LogEntry.write 0 true,
        LogEntry.invoke (ListenerId.resource "a" 0) exEvent 0,
        LogEntry.invoke (ListenerId.resource "c" 0) exEvent 0,
        LogEntry.invoke (ListenerId.resource "c" 1) exEvent 0],
      console := ["no event component for resource b\n"] }

/-- A global listener cancels, a later listener of resource `a` resets the flag. -/
def exReset : Manager := ⟨[setTo true], 0, [⟨"a", some ⟨[setTo false]⟩⟩]⟩

/-- A listener of resource `a` fails. -/
def exFailing : Manager := ⟨[idle], 0, [⟨"a", some ⟨[failing]⟩⟩]⟩

/-- On `"outer"` the listener calls `TriggerEvent("inner")`, queues an event
named after the result it got, then writes `oc` to its own flag; on any other
event it writes `ic`. -/
def nesting (ic oc : Bool) : Listener := fun ev =>
  if ev.eventName = "outer" then
    .triggerEvent ⟨"inner", "", ""⟩ fun r =>
      .queueEvent ⟨if r then "inner returned true" else "inner returned false", "", ""⟩
        (.setCanceled oc .ret)
  else .setCanceled ic .ret

/-- One global listener, `nesting ic oc`. -/
def exNested (ic oc : Bool) : Manager := ⟨[nesting ic oc], 0, []⟩

/-- The event `"outer"`. -/
def exOuter : EventData := ⟨"outer", "", ""⟩

/-- The event `"inner"`. -/
def exInner : EventData := ⟨"inner", "", ""⟩

/-- The log of `TriggerEvent (exNested ic oc) 2 exOuter` when the outer flag
is at address `p`. -/
def exNestedLog (ic oc : Bool) (p : Nat) : List LogEntry :=
  [LogEntry.call exOuter p, LogEntry.invoke (ListenerId.global 0) exOuter p,
   LogEntry.call exInner (p + 1), LogEntry.invoke (ListenerId.global 0) exInner (p + 1),
   LogEntry.write (p + 1) ic, LogEntry.write p oc]

/-- The state `TriggerEvent (exNested ic oc) 2 exOuter s` returns with, for
`s` one of the two example states (the outer flag is at address `p`). -/
def exNestedFinal (ic oc : Bool) (s : State) (p : Nat) : State :=
  { s with
      m_eventQueue :=
        [⟨if ic then "inner returned false" else "inner returned true", "", ""⟩],
      m_wasLastEventCanceled := oc,
      log := exNestedLog ic oc p,
      console :=
        ["queue event " ++ (if ic then "inner returned false" else "inner returned true") ++ "\n"],
      queueCalls :=
        [QueueCall.manager
          ⟨if ic then "inner returned false" else "inner returned true", "", ""⟩] }

/-- Three resources, one of them without event component, and no trigger
listener anywhere; three queue listeners. -/
def exSilent : Manager := ⟨[], 3, [⟨"a", some ⟨[]⟩⟩, ⟨"b", none⟩, ⟨"c", some ⟨[]⟩⟩]⟩

/-- The state `TriggerEvent exReset 1 exEvent State.init` returns with. -/
def exResetFinal : State :=
  { State.init with
      log := [LogEntry.call exEvent 0, LogEntry.invoke (ListenerId.global 0) exEvent 0,
        LogEntry.write 0 true, LogEntry.invoke (ListenerId.resource "a" 0) exEvent 0,
        LogEntry.write 0 false] }

/-- A listener that queues the event it handles again. -/
def requeue : Listener := fun ev => .queueEvent ev .ret

/-- Resource `a` has the listener `requeue`. -/
def exRequeue : Manager := ⟨[idle], 0, [⟨"a", some ⟨[requeue]⟩⟩]⟩

/-- The event `"a"`. -/
def exA : EventData := ⟨"a", "", ""⟩

/-- The event `"b"`. -/
def exB : EventData := ⟨"b", "", ""⟩

/-- The event `"c"`. -/
def exC : EventData := ⟨"c", "", ""⟩

/-- A fresh manager with the given records in its global queue. -/
def State.queued (q : List EventData) : State := { State.init with m_eventQueue := q }

/-- On `"outer"` the listener calls `TriggerEvent("inner")` inside a `try`
block and goes on whether the call returned or failed; on any other event it
fails. -/
def catching : Listener := fun ev =>
  if ev.eventName = "outer" then
    .tryCatch (.triggerEvent ⟨"inner", "", ""⟩ fun _ => .ret) fun _ => .ret
  else .throw

/-- One global listener, `catching`. -/
def exCatching : Manager := ⟨[catching], 0, []⟩

/-- A listener that fails on the event called `name` and does nothing on any
other event. -/
def failingOn (name : String) : Listener := fun ev =>
  if ev.eventName = name then .throw else .ret

/-- One global listener, which fails on `"a"`; nobody enqueues. -/
def exFailingOnA : Manager := ⟨[failingOn "a"], 0, []⟩

/-- Resource `a` has the listener `requeue`, resource `b` a listener that
fails. -/
def exRequeueFailing : Manager :=
  ⟨[idle], 0, [⟨"a", some ⟨[requeue]⟩⟩, ⟨"b", some ⟨[failing]⟩⟩]⟩

/-- The state `Tick exReset 1 2` returns with after `"a"` and `"b"` were
queued on the fresh manager. -/
def exResetDrained : State :=
  { State.init with
      log := [LogEntry.call exA 0, LogEntry.invoke (ListenerId.global 0) exA 0,
        LogEntry.write 0 true, LogEntry.invoke (ListenerId.resource "a" 0) exA 0,
        LogEntry.write 0 false,
        LogEntry.call exB 0, LogEntry.invoke (ListenerId.global 0) exB 0,
        LogEntry.write 0 true, LogEntry.invoke (ListenerId.resource "a" 0) exB 0,
        LogEntry.write 0 false],
      console := ["queue event a\n", "queue event b\n"],
      queueCalls := [QueueCall.manager exA, QueueCall.manager exB] }

/-- The state of `exRequeue` after two turns of the loop of `Tick` started
with `"a"` in the queue: `"a"` is in the queue again. -/
def exRequeueTwoTurns : State :=
  { State.init with
      m_eventQueue := [exA],
      log := [LogEntry.call exA 0, LogEntry.invoke (ListenerId.global 0) exA 0,
        LogEntry.invoke (ListenerId.resource "a" 0) exA 0,
        LogEntry.call exA 0, LogEntry.invoke (ListenerId.global 0) exA 0,
        LogEntry.invoke (ListenerId.resource "a" 0) exA 0],
      console := ["queue event a\n", "queue event a\n"],
      queueCalls := [QueueCall.manager exA, QueueCall.manager exA] }

/-! ## Lemmas on the ghost log -/

theorem LogEntry.addrGE_mono {n k : Nat} (h : n ≤ k) {e : LogEntry} (he : e.addrGE k) :
    e.addrGE n := by
  cases e <;> simp only [LogEntry.addrGE] at he ⊢ <;> omega

theorem lastWrite_append (p : Nat) (a b : List LogEntry) (v : Bool) :
    lastWrite p (a ++ b) v = lastWrite p b (lastWrite p a v) := by
  induction a generalizing v with
  | nil => rfl
  | cons e es ih => exact ih _

theorem lastWrite_of_addrGE (p : Nat) (a : List LogEntry) (v : Bool)
    (h : ∀ e ∈ a, e.addrGE (p + 1)) : lastWrite p a v = v := by
  induction a generalizing v with
  | nil => rfl
  | cons e es ih =>
    have he := h e (List.mem_cons_self _ _)
    have hes : ∀ x ∈ es, x.addrGE (p + 1) := fun x hx => h x (List.mem_cons_of_mem _ hx)
    cases e with
    | write q b =>
      have hq : q ≠ p := by simp only [LogEntry.addrGE] at he; omega
      simp only [lastWrite, hq, if_false, ih _ hes]
    | call _ _ => simp only [lastWrite, ih _ hes]
    | invoke _ _ _ => simp only [lastWrite, ih _ hes]
    | notify _ _ _ => simp only [lastWrite, ih _ hes]

theorem direct_append (p : Nat) (a b : List LogEntry) :
    direct p (a ++ b) = direct p a ++ direct p b := by
  simp only [direct, List.filter_append]

theorem direct_of_addrGE (p : Nat) (a : List LogEntry)
    (h : ∀ e ∈ a, e.addrGE (p + 1)) : direct p a = [] := by
  simp only [direct, List.filter_eq_nil_iff]
  intro e he
  have := h e he
  cases e with
  | invoke _ _ q =>
    simp only [LogEntry.addrGE] at this
    simp only [decide_eq_true_eq]
    omega
  | call _ _ => simp
  | write _ _ => simp
  | notify _ _ _ => simp

theorem topCalls_append (p : Nat) (a b : List LogEntry) :
    topCalls p (a ++ b) = topCalls p a ++ topCalls p b := by
  simp only [topCalls, List.filter_append]

theorem topCalls_of_addrGE (p : Nat) (a : List LogEntry)
    (h : ∀ e ∈ a, e.addrGE (p + 1)) : topCalls p a = [] := by
  simp only [topCalls, List.filter_eq_nil_iff]
  intro e he
  have := h e he
  cases e with
  | call _ q =>
    simp only [LogEntry.addrGE] at this
    simp only [decide_eq_true_eq]
    omega
  | invoke _ _ _ => simp
  | write _ _ => simp
  | notify _ _ _ => simp

theorem addrGE_notify (k n : Nat) (ev : EventData) (q : List EventData) :
    ∀ e ∈ (List.range n).map (fun i => LogEntry.notify i ev q), e.addrGE k := by
  intro e he
  obtain ⟨i, _, rfl⟩ := List.mem_map.1 he
  trivial

theorem direct_notify (p n : Nat) (ev : EventData) (q : List EventData) :
    direct p ((List.range n).map fun i => LogEntry.notify i ev q) = [] := by
  simp only [direct, List.filter_eq_nil_iff, List.mem_map]
  rintro e ⟨i, _, rfl⟩
  simp

theorem lastWrite_notify (p n : Nat) (ev : EventData) (q : List EventData) (v : Bool) :
    lastWrite p ((List.range n).map fun i => LogEntry.notify i ev q) v = v := by
  generalize List.range n = l
  induction l with
  | nil => rfl
  | cons i is ih => simp only [List.map_cons, lastWrite, ih]

/-! ## Composition of stretches -/

theorem Grows.refl (p : Nat) (s : State) : Grows p s s [] :=
  ⟨by simp, rfl, rfl, rfl, by simp, rfl⟩

theorem Grows.trans {p : Nat} {s t u : State} {n1 n2 : List LogEntry}
    (h1 : Grows p s t n1) (h2 : Grows p t u n2) : Grows p s u (n1 ++ n2) where
  log := by rw [h2.log, h1.log, List.append_assoc]
  len := h2.len.trans h1.len
  pre := h2.pre.trans h1.pre
  flag := by rw [h2.flag, h1.flag, lastWrite_append]
  addr := by
    intro e he
    rcases List.mem_append.1 he with h | h
    · exact h1.addr e h
    · exact h2.addr e h
  calls := by rw [topCalls_append, h1.calls, h2.calls]; rfl

theorem BodySpec.prepend {p : Nat} {s t : State} {n1 D1 D : List LogEntry} {r : Result Unit}
    (h1 : Grows p s t n1) (hd : direct p n1 = D1)
    (hs : ∃ extra, t.m_eventCancelationStack = extra ++ s.m_eventCancelationStack)
    (h2 : BodySpec p D t r) : BodySpec p (D1 ++ D) s r := by
  obtain ⟨e1, hs⟩ := hs
  cases r with
  | ok v u =>
    obtain ⟨⟨extra, hst⟩, new, hg, hdn⟩ := h2
    exact ⟨⟨extra ++ e1, by rw [hst, hs, List.append_assoc]⟩, n1 ++ new, h1.trans hg,
      by rw [direct_append, hd, hdn]⟩
  | thrown u =>
    obtain ⟨⟨extra, hst⟩, new, hg, hdn⟩ := h2
    exact ⟨⟨extra ++ e1, by rw [hst, hs, List.append_assoc]⟩, n1 ++ new, h1.trans hg,
      by rw [direct_append, hd]; exact (List.prefix_append_right_inj _).2 hdn⟩
  | diverge => trivial

theorem tail_append_cons (e : List Nat) (p : Nat) (l : List Nat) :
    ∃ extra, (e ++ p :: l).tail = extra ++ l := by
  cases e with
  | nil => exact ⟨[], rfl⟩
  | cons a e => exact ⟨e ++ [p], by simp⟩

theorem Grows.of_nested {p : Nat} {s t : State} {n : List LogEntry}
    (hp : p < s.frames.length) (hf : t.frames = s.frames) (hl : t.log = s.log ++ n)
    (ha : ∀ e ∈ n, e.addrGE s.frames.length) : Grows p s t n ∧ direct p n = [] := by
  have ha1 : ∀ e ∈ n, e.addrGE (p + 1) := fun e he => LogEntry.addrGE_mono hp (ha e he)
  refine ⟨⟨hl, by rw [hf], by rw [hf], ?_, ?_, topCalls_of_addrGE p n ha1⟩,
    direct_of_addrGE p n ha1⟩
  · rw [hf, lastWrite_of_addrGE p n _ ha1]
  · exact fun e he => LogEntry.addrGE_mono (Nat.le_of_lt hp) (ha e he)

theorem take_set_self (l : List Bool) (p : Nat) (b : Bool) :
    (l.set p b).take p = l.take p := by
  apply List.ext_getElem?
  intro i
  rw [List.getElem?_take, List.getElem?_take]
  split
  · next h => rw [List.getElem?_set_ne (by omega)]
  · rfl

theorem Grows.setCanceled (p : Nat) (b : Bool) (s : State) (hp : p < s.frames.length) :
    Grows p s { s with frames := s.frames.set p b, log := s.log ++ [LogEntry.write p b] }
      [LogEntry.write p b] where
  log := rfl
  len := by simp
  pre := take_set_self _ _ _
  flag := by simp [lastWrite, hp]
  addr := by simp [LogEntry.addrGE]
  calls := rfl

theorem Grows.invoke (p : Nat) (l : ListenerId) (ev : EventData) (s : State) :
    Grows p s { s with log := s.log ++ [LogEntry.invoke l ev p] } [LogEntry.invoke l ev p] where
  log := rfl
  len := rfl
  pre := rfl
  flag := rfl
  addr := by simp [LogEntry.addrGE]
  calls := rfl

theorem Grows.QueueEvent (p : Nat) (m : Manager) (ev : EventData) (s : State) :
    Grows p s (QueueEvent m ev s)
      ((List.range m.OnQueueEvent).map fun i => LogEntry.notify i ev (s.m_eventQueue ++ [ev])) where
  log := rfl
  len := rfl
  pre := rfl
  flag := by rw [lastWrite_notify]; rfl
  addr := addrGE_notify _ _ _ _
  calls := topCalls_of_addrGE _ _ (addrGE_notify _ _ _ _)

theorem runProg_spec (m : Manager) (trigger : EventData → State → Result Bool) (p : Nat)
    (H : ∀ ev s, CallSpec m ev s (trigger ev s)) (prog : Prog) :
    ∀ s : State, p < s.frames.length → BodySpec p [] s (runProg m trigger p prog s) := by
  induction prog with
  | ret => intro s _; exact ⟨⟨[], rfl⟩, [], Grows.refl p s, rfl⟩
  | throw => intro s _; exact ⟨⟨[], rfl⟩, [], Grows.refl p s, List.prefix_rfl⟩
  | tryCatch body k ihb ihk =>
    intro s hp
    have h := ihb s hp
    simp only [runProg]
    generalize runProg m trigger p body s = r at h
    cases r with
    | ok v t =>
      obtain ⟨hst, new, hg, hd⟩ := h
      exact BodySpec.prepend hg hd hst (ihk true t (by rw [hg.len]; exact hp))
    | thrown t =>
      obtain ⟨hst, new, hg, hd⟩ := h
      exact BodySpec.prepend hg (List.prefix_nil.1 hd) hst
        (ihk false t (by rw [hg.len]; exact hp))
    | diverge => trivial
  | setCanceled b k ih =>
    intro s hp
    exact BodySpec.prepend (Grows.setCanceled p b s hp) rfl ⟨[], rfl⟩ (ih _ (by simpa using hp))
  | getCanceled k ih => intro s hp; exact ih _ s hp
  | triggerEvent ev k ih =>
    intro s hp
    have h := H ev s
    simp only [runProg]
    generalize trigger ev s = r at h
    cases r with
    | ok v t =>
      obtain ⟨hf, hst, _, new, hl, ha, _, _, _⟩ := h
      have ha1 : ∀ e ∈ LogEntry.call ev s.frames.length :: new, e.addrGE s.frames.length := by
        intro e he
        rcases List.mem_cons.1 he with rfl | he
        · exact Nat.le_refl _
        · exact ha e he
      obtain ⟨hg, hd⟩ := Grows.of_nested hp hf hl ha1
      exact BodySpec.prepend hg hd hst (ih v t (by rw [hf]; exact hp))
    | thrown t =>
      obtain ⟨hf, ⟨extra, hst⟩, new, hl, ha, _⟩ := h
      have ha1 : ∀ e ∈ LogEntry.call ev s.frames.length :: new, e.addrGE s.frames.length := by
        intro e he
        rcases List.mem_cons.1 he with rfl | he
        · exact Nat.le_refl _
        · exact ha e he
      obtain ⟨hg, hd⟩ := Grows.of_nested hp hf hl ha1
      exact ⟨⟨extra ++ [s.frames.length], by rw [hst]; simp⟩, _, hg, by rw [hd]⟩
    | diverge => trivial
  | queueEvent ev k ih =>
    intro s hp
    exact BodySpec.prepend (Grows.QueueEvent p m ev s) (direct_notify _ _ _ _) ⟨[], rfl⟩ (ih _ hp)
  | resourceQueueEvent r ev k ih =>
    intro s hp
    have hg : Grows p s (ResourceEventComponent.QueueEvent r ev s) [] :=
      ⟨by simp [ResourceEventComponent.QueueEvent], rfl, rfl, rfl, by simp, rfl⟩
    exact BodySpec.prepend hg rfl ⟨[], rfl⟩ (ih (ResourceEventComponent.QueueEvent r ev s) hp)

theorem OnTriggerEvent_spec (m : Manager) (trigger : EventData → State → Result Bool)
    (mk : Nat → ListenerId) (ev : EventData) (p : Nat)
    (H : ∀ ev s, CallSpec m ev s (trigger ev s)) (ls : List Listener) :
    ∀ (i : Nat) (s : State), p < s.frames.length →
      BodySpec p ((List.range' i ls.length).map fun j => LogEntry.invoke (mk j) ev p) s
        (OnTriggerEvent m trigger mk ev p i ls s) := by
  induction ls with
  | nil => intro i s _; exact ⟨⟨[], rfl⟩, [], Grows.refl p s, rfl⟩
  | cons l ls ih =>
    intro i s hp
    have h1 := runProg_spec m trigger p H (l ev)
      { s with log := s.log ++ [LogEntry.invoke (mk i) ev p] } hp
    have hd : direct p [LogEntry.invoke (mk i) ev p] = [LogEntry.invoke (mk i) ev p] := by
      simp [direct]
    simp only [OnTriggerEvent, List.length_cons, List.range'_succ, List.map_cons]
    generalize runProg m trigger p (l ev) { s with log := s.log ++ [LogEntry.invoke (mk i) ev p] } = r at h1
    cases r with
    | ok v t =>
      obtain ⟨hst, new, hg, hdn⟩ := h1
      have hg2 := (Grows.invoke p (mk i) ev s).trans hg
      have hd2 : direct p ([LogEntry.invoke (mk i) ev p] ++ new) = [LogEntry.invoke (mk i) ev p] := by
        rw [direct_append, hd, hdn]; rfl
      exact BodySpec.prepend hg2 hd2 hst (ih (i + 1) t (by rw [hg.len]; exact hp))
    | thrown t =>
      obtain ⟨hst, new, hg, hdn⟩ := h1
      refine ⟨hst, _, (Grows.invoke p (mk i) ev s).trans hg, ?_⟩
      rw [direct_append, hd, List.prefix_nil.1 hdn]
      exact ⟨_, rfl⟩
    | diverge => trivial

theorem ForAllResources_spec (m : Manager) (trigger : EventData → State → Result Bool)
    (ev : EventData) (p : Nat)
    (H : ∀ ev s, CallSpec m ev s (trigger ev s)) (rs : List Resource) :
    ∀ s : State, p < s.frames.length →
      BodySpec p (resourceInvocations ev p rs) s (ForAllResources m trigger ev p rs s) := by
  induction rs with
  | nil => intro s _; exact ⟨⟨[], rfl⟩, [], Grows.refl p s, rfl⟩
  | cons r rs ih =>
    intro s hp
    cases hc : r.eventComponent with
    | none =>
      simp only [ForAllResources, hc, resourceInvocations, List.flatMap_cons]
      have hg : Grows p s
          { s with console :=
              s.console ++ ["no event component for resource " ++ c_str r.name ++ "\n"] } [] :=
        ⟨by simp, rfl, rfl, rfl, by simp, rfl⟩
      exact BodySpec.prepend hg rfl ⟨[], rfl⟩ (ih _ hp)
    | some c =>
      have h1 := OnTriggerEvent_spec m trigger (ListenerId.resource r.name) ev p H
        c.OnTriggerEvent 0 s hp
      simp only [ForAllResources, hc, resourceInvocations, List.flatMap_cons, HandleTriggerEvent,
        invocations, List.range_eq_range']
      generalize OnTriggerEvent m trigger (ListenerId.resource r.name) ev p 0 c.OnTriggerEvent s = x at h1
      cases x with
      | ok v t =>
        obtain ⟨hst, new, hg, hdn⟩ := h1
        have := BodySpec.prepend hg hdn hst (ih t (by rw [hg.len]; exact hp))
        simpa only [resourceInvocations, invocations, List.range_eq_range'] using this
      | thrown t =>
        obtain ⟨hst, new, hg, hdn⟩ := h1
        exact ⟨hst, new, hg, hdn.trans (List.prefix_append _ _)⟩
      | diverge => trivial

theorem TriggerEvent_spec (m : Manager) (fuel : Nat) :
    ∀ (ev : EventData) (s : State), CallSpec m ev s (TriggerEvent m fuel ev s) := by
  induction fuel with
  | zero => intro ev s; trivial
  | succ fuel ih =>
    intro ev s
    have hp : s.frames.length < (s.frames ++ [false]).length := by simp
    have h1 := OnTriggerEvent_spec m (TriggerEvent m fuel) ListenerId.global ev s.frames.length ih
      m.OnTriggerEvent 0
      { s with frames := s.frames ++ [false],
               m_eventCancelationStack := s.frames.length :: s.m_eventCancelationStack,
               log := s.log ++ [LogEntry.call ev s.frames.length] } hp
    simp only [TriggerEvent]
    generalize OnTriggerEvent m (TriggerEvent m fuel) ListenerId.global ev s.frames.length 0
      m.OnTriggerEvent _ = r1 at h1
    cases r1 with
    | diverge => trivial
    | thrown t =>
      obtain ⟨⟨extra, hst⟩, new, hg, _⟩ := h1
      refine ⟨?_, ⟨extra, hst⟩, new, ?_, hg.addr, hg.calls⟩
      · show t.frames.take s.frames.length = s.frames
        rw [hg.pre]; exact List.take_left _ _
      · show t.log = _
        rw [hg.log]; simp
    | ok v t =>
      obtain ⟨⟨e1, hst⟩, new, hg, hdn⟩ := h1
      have h2 := ForAllResources_spec m (TriggerEvent m fuel) ev s.frames.length ih m.resources t
        (by rw [hg.len]; exact hp)
      simp only []
      generalize ForAllResources m (TriggerEvent m fuel) ev s.frames.length m.resources t = r2 at h2
      cases r2 with
      | diverge => trivial
      | thrown u =>
        obtain ⟨⟨extra, hst2⟩, new2, hg2, _⟩ := h2
        have hg3 := hg.trans hg2
        refine ⟨?_, ⟨extra ++ e1, by rw [hst2, hst, List.append_assoc]⟩, new ++ new2, ?_,
          hg3.addr, hg3.calls⟩
        · show u.frames.take s.frames.length = s.frames
          rw [hg3.pre]; exact List.take_left _ _
        · show u.log = _
          rw [hg3.log]; simp
      | ok w u =>
        obtain ⟨⟨e2, hst2⟩, new2, hg2, hdn2⟩ := h2
        have hg3 := hg.trans hg2
        refine ⟨?_, ?_, ?_, new ++ new2, ?_, hg3.addr, ?_, ?_, hg3.calls⟩
        · show u.frames.take s.frames.length = s.frames
          rw [hg3.pre]; exact List.take_left _ _
        · show ∃ extra, u.m_eventCancelationStack.tail = extra ++ s.m_eventCancelationStack
          rw [hst2, hst, ← List.append_assoc]
          exact tail_append_cons _ _ _
        · show u.frames.getD s.frames.length false = !(!u.frames.getD s.frames.length false)
          rw [Bool.not_not]
        · show u.log = _
          rw [hg3.log]; simp
        · show (!u.frames.getD s.frames.length false) = _
          rw [hg3.flag]
          simp
        · rw [direct_append, hdn, hdn2]
          simp only [Manager.invocations, invocations, List.range_eq_range']

/-! ## Listeners that do not enqueue leave the global queue alone -/

theorem KeepsQueue.of_step {α : Type} {s t : State} {r : Result α}
    (h : t.m_eventQueue = s.m_eventQueue) (hr : KeepsQueue t r) : KeepsQueue s r := by
  cases r with
  | ok v u => exact Eq.trans hr h
  | thrown u => exact Eq.trans hr h
  | diverge => trivial

theorem runProg_keepsQueue (m : Manager) (trigger : EventData → State → Result Bool) (p : Nat)
    (H : ∀ ev s, KeepsQueue s (trigger ev s)) (prog : Prog) :
    prog.noQueue = true → ∀ s : State, KeepsQueue s (runProg m trigger p prog s) := by
  induction prog with
  | ret => intro _ s; exact rfl
  | throw => intro _ s; exact rfl
  | tryCatch body k ihb ihk =>
    intro hq s
    simp only [Prog.noQueue, Bool.and_eq_true] at hq
    have h := ihb hq.1.1 s
    simp only [runProg]
    generalize runProg m trigger p body s = r at h
    cases r with
    | ok v t => exact KeepsQueue.of_step h (ihk true hq.1.2 t)
    | thrown t => exact KeepsQueue.of_step h (ihk false hq.2 t)
    | diverge => trivial
  | setCanceled b k ih =>
    intro hq s
    exact KeepsQueue.of_step rfl (ih hq _)
  | getCanceled k ih =>
    intro hq s
    simp only [Prog.noQueue, Bool.and_eq_true] at hq
    cases hb : s.frames.getD p false with
    | true => simp only [runProg, hb]; exact ih true hq.1 s
    | false => simp only [runProg, hb]; exact ih false hq.2 s
  | triggerEvent ev k ih =>
    intro hq s
    simp only [Prog.noQueue, Bool.and_eq_true] at hq
    have h := H ev s
    simp only [runProg]
    generalize trigger ev s = r at h
    cases r with
    | ok v t =>
      cases v with
      | true => exact KeepsQueue.of_step h (ih true hq.1 t)
      | false => exact KeepsQueue.of_step h (ih false hq.2 t)
    | thrown t => exact h
    | diverge => trivial
  | queueEvent ev k ih => intro hq; simp [Prog.noQueue] at hq
  | resourceQueueEvent r ev k ih =>
    intro hq s
    exact KeepsQueue.of_step rfl (ih hq _)

theorem OnTriggerEvent_keepsQueue (m : Manager) (trigger : EventData → State → Result Bool)
    (mk : Nat → ListenerId) (ev : EventData) (p : Nat)
    (H : ∀ ev s, KeepsQueue s (trigger ev s)) (ls : List Listener)
    (hq : ∀ l ∈ ls, ∀ ev, (l ev).noQueue = true) :
    ∀ (i : Nat) (s : State), KeepsQueue s (OnTriggerEvent m trigger mk ev p i ls s) := by
  induction ls with
  | nil => intro i s; exact rfl
  | cons l ls ih =>
    intro i s
    have h1 := runProg_keepsQueue m trigger p H (l ev) (hq l (List.mem_cons_self _ _) ev)
      { s with log := s.log ++ [LogEntry.invoke (mk i) ev p] }
    simp only [OnTriggerEvent]
    generalize runProg m trigger p (l ev) _ = r at h1
    cases r with
    | ok v t =>
      exact KeepsQueue.of_step h1 (ih (fun x hx => hq x (List.mem_cons_of_mem _ hx)) (i + 1) t)
    | thrown t => exact h1
    | diverge => trivial

theorem ForAllResources_keepsQueue (m : Manager) (trigger : EventData → State → Result Bool)
    (ev : EventData) (p : Nat)
    (H : ∀ ev s, KeepsQueue s (trigger ev s)) (rs : List Resource)
    (hq : ∀ r ∈ rs, ∀ c, r.eventComponent = some c →
      ∀ l ∈ c.OnTriggerEvent, ∀ ev, (l ev).noQueue = true) :
    ∀ s : State, KeepsQueue s (ForAllResources m trigger ev p rs s) := by
  induction rs with
  | nil => intro s; exact rfl
  | cons r rs ih =>
    intro s
    have hrs := ih fun x hx => hq x (List.mem_cons_of_mem _ hx)
    cases hc : r.eventComponent with
    | none =>
      simp only [ForAllResources, hc]
      exact KeepsQueue.of_step rfl (hrs _)
    | some c =>
      have h1 := OnTriggerEvent_keepsQueue m trigger (ListenerId.resource r.name) ev p H
        c.OnTriggerEvent (hq r (List.mem_cons_self _ _) c hc) 0 s
      simp only [ForAllResources, hc, HandleTriggerEvent]
      generalize OnTriggerEvent m trigger (ListenerId.resource r.name) ev p 0 c.OnTriggerEvent s = x
        at h1
      cases x with
      | ok v t => exact KeepsQueue.of_step h1 (hrs t)
      | thrown t => exact h1
      | diverge => trivial

theorem TriggerEvent_keepsQueue (m : Manager) (hq : m.noQueue) (fuel : Nat) :
    ∀ (ev : EventData) (s : State), KeepsQueue s (TriggerEvent m fuel ev s) := by
  induction fuel with
  | zero => intro ev s; trivial
  | succ fuel ih =>
    intro ev s
    have h1 := OnTriggerEvent_keepsQueue m (TriggerEvent m fuel) ListenerId.global ev
      s.frames.length ih m.OnTriggerEvent hq.1 0
      { s with frames := s.frames ++ [false],
               m_eventCancelationStack := s.frames.length :: s.m_eventCancelationStack,
               log := s.log ++ [LogEntry.call ev s.frames.length] }
    simp only [TriggerEvent]
    generalize OnTriggerEvent m (TriggerEvent m fuel) ListenerId.global ev s.frames.length 0
      m.OnTriggerEvent _ = r1 at h1
    cases r1 with
    | diverge => trivial
    | thrown t => exact h1
    | ok v t =>
      have h2 := ForAllResources_keepsQueue m (TriggerEvent m fuel) ev s.frames.length ih
        m.resources hq.2 t
      simp only []
      generalize ForAllResources m (TriggerEvent m fuel) ev s.frames.length m.resources t = r2
        at h2
      cases r2 with
      | diverge => trivial
      | thrown u => exact Eq.trans h2 h1
      | ok w u => exact Eq.trans h2 h1

theorem foldl_QueueEvent (m : Manager) (rs : List EventData) :
    ∀ s : State, (rs.foldl (fun s r => QueueEvent m r s) s).m_eventQueue = s.m_eventQueue ++ rs ∧
      (rs.foldl (fun s r => QueueEvent m r s) s).frames = s.frames := by
  induction rs with
  | nil => intro s; simp
  | cons r rs ih =>
    intro s
    obtain ⟨h1, h2⟩ := ih (QueueEvent m r s)
    simp only [List.foldl_cons]
    refine ⟨h1.trans ?_, h2⟩
    simp [QueueEvent, OnQueueEvent]

theorem Tick_noQueue (m : Manager) (depth : Nat) (hq : m.noQueue) (bound : Nat) :
    ∀ s t : State, Tick m depth bound s = Result.ok () t →
      t.m_eventQueue = [] ∧ t.frames = s.frames ∧
        ∃ new, t.log = s.log ++ new ∧
          topCalls s.frames.length new =
            s.m_eventQueue.map fun r => LogEntry.call r s.frames.length := by
  induction bound with
  | zero =>
    intro s t h
    cases hs : s.m_eventQueue with
    | nil =>
      simp only [Tick, hs, Result.ok.injEq, true_and] at h
      subst h
      exact ⟨hs, rfl, [], by simp, by simp [topCalls]⟩
    | cons ev rest => simp [Tick, hs] at h
  | succ k ih =>
    intro s t h
    cases hs : s.m_eventQueue with
    | nil =>
      simp only [Tick, hs, Result.ok.injEq, true_and] at h
      subst h
      exact ⟨hs, rfl, [], by simp, by simp [topCalls]⟩
    | cons ev rest =>
      simp only [Tick, hs] at h
      have hk := TriggerEvent_keepsQueue m hq depth ev { s with m_eventQueue := rest }
      have hc := TriggerEvent_spec m depth ev { s with m_eventQueue := rest }
      generalize TriggerEvent m depth ev { s with m_eventQueue := rest } = r at h hk hc
      cases r with
      | diverge => simp at h
      | thrown u => simp at h
      | ok b u =>
        simp only [] at h
        obtain ⟨hf, _, _, new1, hl1, _, _, _, hcalls⟩ := hc
        have hf1 : u.frames = s.frames := hf
        have hl1' : u.log = s.log ++ LogEntry.call ev s.frames.length :: new1 := hl1
        have hcalls1 : topCalls s.frames.length new1 = [] := hcalls
        have hq1 : u.m_eventQueue = rest := hk
        obtain ⟨hte, htf, new2, hl2, hc2⟩ := ih u t h
        refine ⟨hte, htf.trans hf1, LogEntry.call ev s.frames.length :: new1 ++ new2, ?_, ?_⟩
        · rw [hl2, hl1']; simp
        · rw [hf1, hq1] at hc2
          rw [List.cons_append, ← List.singleton_append, topCalls_append, topCalls_append, hc2,
            hcalls1]
          simp [topCalls]

theorem Tick_turns (m : Manager) (depth : Nat) (hq : m.noQueue) :
    ∀ (q : List EventData) (s : State), s.m_eventQueue = q →
      (∀ bound, q.length ≤ bound → Tick m depth bound s = Tick m depth q.length s) ∧
      (Tick m depth q.length s = Result.diverge →
        ∃ r ∈ q, ∃ u, TriggerEvent m depth r u = Result.diverge) := by
  intro q
  induction q with
  | nil =>
    intro s hs
    refine ⟨fun bound _ => ?_, fun h => ?_⟩
    · cases bound <;> simp [Tick, hs]
    · simp [Tick, hs] at h
  | cons ev rest ih =>
    intro s hs
    have hk := TriggerEvent_keepsQueue m hq depth ev { s with m_eventQueue := rest }
    cases hx : TriggerEvent m depth ev { s with m_eventQueue := rest } with
    | diverge =>
      refine ⟨fun bound hb => ?_, fun _ => ⟨ev, List.mem_cons_self _ _, _, hx⟩⟩
      cases bound with
      | zero => simp at hb
      | succ k => simp only [Tick, hs, hx, List.length_cons]
    | thrown u =>
      refine ⟨fun bound hb => ?_, fun h => ?_⟩
      · cases bound with
        | zero => simp at hb
        | succ k => simp only [Tick, hs, hx, List.length_cons]
      · simp [Tick, hs, hx] at h
    | ok b u =>
      rw [hx] at hk
      obtain ⟨h1, h2⟩ := ih u hk
      refine ⟨fun bound hb => ?_, fun h => ?_⟩
      · cases bound with
        | zero => simp at hb
        | succ k =>
          simp only [Tick, hs, hx, List.length_cons]
          exact h1 k (by simpa using hb)
      · simp only [Tick, hs, hx, List.length_cons] at h
        obtain ⟨r, hr, w, hw⟩ := h2 h
        exact ⟨r, List.mem_cons_of_mem _ hr, w, hw⟩

theorem Tick_noQueue_thrown (m : Manager) (depth : Nat) (hq : m.noQueue) (bound : Nat) :
    ∀ s t : State, Tick m depth bound s = Result.thrown t →
      ∃ k, k < s.m_eventQueue.length ∧ t.m_eventQueue = s.m_eventQueue.drop (k + 1) ∧
        ∃ new, t.log = s.log ++ new ∧
          topCalls s.frames.length new =
            (s.m_eventQueue.take (k + 1)).map fun r => LogEntry.call r s.frames.length := by
  induction bound with
  | zero =>
    intro s t h
    cases hs : s.m_eventQueue <;> simp [Tick, hs] at h
  | succ n ih =>
    intro s t h
    cases hs : s.m_eventQueue with
    | nil => simp [Tick, hs] at h
    | cons ev rest =>
      simp only [Tick, hs] at h
      have hk := TriggerEvent_keepsQueue m hq depth ev { s with m_eventQueue := rest }
      have hc := TriggerEvent_spec m depth ev { s with m_eventQueue := rest }
      generalize TriggerEvent m depth ev { s with m_eventQueue := rest } = r at h hk hc
      cases r with
      | diverge => simp at h
      | thrown u =>
        simp only [Result.thrown.injEq] at h
        subst h
        obtain ⟨_, _, new1, hl1, _, hcalls⟩ := hc
        have hl1' : u.log = s.log ++ LogEntry.call ev s.frames.length :: new1 := hl1
        have hcalls1 : topCalls s.frames.length new1 = [] := hcalls
        have hq1 : u.m_eventQueue = rest := hk
        refine ⟨0, by simp, by simpa using hq1, LogEntry.call ev s.frames.length :: new1, hl1', ?_⟩
        rw [← List.singleton_append, topCalls_append, hcalls1]
        simp [topCalls]
      | ok b u =>
        simp only [] at h
        obtain ⟨hf, _, _, new1, hl1, _, _, _, hcalls⟩ := hc
        have hf1 : u.frames = s.frames := hf
        have hl1' : u.log = s.log ++ LogEntry.call ev s.frames.length :: new1 := hl1
        have hcalls1 : topCalls s.frames.length new1 = [] := hcalls
        have hq1 : u.m_eventQueue = rest := hk
        obtain ⟨k, hklt, htq, new2, hl2, hc2⟩ := ih u t h
        rw [hq1] at hklt htq
        refine ⟨k + 1, by simpa using hklt, by simpa using htq,
          LogEntry.call ev s.frames.length :: new1 ++ new2, ?_, ?_⟩
        · rw [hl2, hl1']; simp
        · rw [hf1, hq1] at hc2
          rw [List.cons_append, ← List.singleton_append, topCalls_append, topCalls_append, hc2,
            hcalls1]
          simp [topCalls]
/-! ## Dispatch does not depend on the console or on component-less resources -/

theorem State.quiet_eq {s t : State} :
    s.quiet = t.quiet ↔
      s.m_eventQueue = t.m_eventQueue ∧
      s.m_eventCancelationStack = t.m_eventCancelationStack ∧
      s.m_wasLastEventCanceled = t.m_wasLastEventCanceled ∧
      s.localQueues = t.localQueues ∧ s.frames = t.frames ∧ s.log = t.log ∧
      s.queueCalls = t.queueCalls := by
  cases s; cases t; simp [State.quiet]

theorem runProg_quiet (m n : Manager) (trigger other : EventData → State → Result Bool)
    (p : Nat) (hmn : m.OnQueueEvent = n.OnQueueEvent)
    (H : ∀ ev s t, s.quiet = t.quiet → (trigger ev s).quiet = (other ev t).quiet)
    (prog : Prog) :
    ∀ s t : State, s.quiet = t.quiet →
      (runProg m trigger p prog s).quiet = (runProg n other p prog t).quiet := by
  induction prog with
  | ret => intro s t h; simp only [runProg, Result.quiet, h]
  | throw => intro s t h; simp only [runProg, Result.quiet, h]
  | tryCatch body k ihb ihk =>
    intro s t h
    have hc := ihb s t h
    simp only [runProg]
    generalize runProg m trigger p body s = r1 at hc
    generalize runProg n other p body t = r2 at hc
    cases r1 <;> cases r2 <;> simp only [Result.quiet, Result.ok.injEq, Result.thrown.injEq,
      reduceCtorEq] at hc ⊢
    · exact ihk _ _ _ hc.2
    · exact ihk _ _ _ hc
  | setCanceled b k ih =>
    intro s t h
    simp only [runProg]
    apply ih
    rw [State.quiet_eq] at h ⊢
    obtain ⟨h1, h2, h3, h4, h5, h6, h7⟩ := h
    exact ⟨h1, h2, h3, h4, by simp only [h5], by simp only [h6], h7⟩
  | getCanceled k ih =>
    intro s t h
    simp only [runProg]
    rw [(State.quiet_eq.1 h).2.2.2.2.1]
    exact ih _ s t h
  | triggerEvent ev k ih =>
    intro s t h
    have hc := H ev s t h
    simp only [runProg]
    generalize trigger ev s = r1 at hc
    generalize other ev t = r2 at hc
    cases r1 <;> cases r2 <;> simp only [Result.quiet, Result.ok.injEq, Result.thrown.injEq,
      reduceCtorEq] at hc ⊢
    · obtain ⟨hv, hst⟩ := hc
      subst hv
      exact ih _ _ _ hst
    · exact hc
  | queueEvent ev k ih =>
    intro s t h
    simp only [runProg]
    apply ih
    rw [State.quiet_eq] at h ⊢
    obtain ⟨h1, h2, h3, h4, h5, h6, h7⟩ := h
    simp only [QueueEvent, OnQueueEvent, h1, h2, h3, h4, h5, h6, h7, hmn, and_self]
  | resourceQueueEvent r ev k ih =>
    intro s t h
    simp only [runProg]
    apply ih
    rw [State.quiet_eq] at h ⊢
    obtain ⟨h1, h2, h3, h4, h5, h6, h7⟩ := h
    simp only [ResourceEventComponent.QueueEvent, h1, h2, h3, h4, h5, h6, h7, and_self]

theorem OnTriggerEvent_quiet (m n : Manager) (trigger other : EventData → State → Result Bool)
    (mk : Nat → ListenerId) (ev : EventData) (p : Nat) (hmn : m.OnQueueEvent = n.OnQueueEvent)
    (H : ∀ ev s t, s.quiet = t.quiet → (trigger ev s).quiet = (other ev t).quiet)
    (ls : List Listener) :
    ∀ (i : Nat) (s t : State), s.quiet = t.quiet →
      (OnTriggerEvent m trigger mk ev p i ls s).quiet =
        (OnTriggerEvent n other mk ev p i ls t).quiet := by
  induction ls with
  | nil => intro i s t h; simp only [OnTriggerEvent, Result.quiet, h]
  | cons l ls ih =>
    intro i s t h
    have h1 := runProg_quiet m n trigger other p hmn H (l ev)
      { s with log := s.log ++ [LogEntry.invoke (mk i) ev p] }
      { t with log := t.log ++ [LogEntry.invoke (mk i) ev p] }
      (by
        rw [State.quiet_eq] at h ⊢
        obtain ⟨h1, h2, h3, h4, h5, h6, h7⟩ := h
        exact ⟨h1, h2, h3, h4, h5, by simp only [h6], h7⟩)
    simp only [OnTriggerEvent]
    generalize runProg m trigger p (l ev) _ = r1 at h1
    generalize runProg n other p (l ev) _ = r2 at h1
    cases r1 <;> cases r2 <;> simp only [Result.quiet, Result.ok.injEq, Result.thrown.injEq,
      reduceCtorEq] at h1 ⊢
    · exact ih _ _ _ h1.2
    · exact h1

theorem ForAllResources_quiet (m n : Manager) (trigger other : EventData → State → Result Bool)
    (ev : EventData) (p : Nat) (hmn : m.OnQueueEvent = n.OnQueueEvent)
    (H : ∀ ev s t, s.quiet = t.quiet → (trigger ev s).quiet = (other ev t).quiet)
    (rs : List Resource) :
    ∀ s t : State, s.quiet = t.quiet →
      (ForAllResources m trigger ev p rs s).quiet =
        (ForAllResources n other ev p (rs.filter fun r => r.eventComponent.isSome) t).quiet := by
  induction rs with
  | nil => intro s t h; simp only [ForAllResources, List.filter_nil, Result.quiet, h]
  | cons r rs ih =>
    intro s t h
    cases hc : r.eventComponent with
    | none =>
      simp only [ForAllResources, hc, List.filter_cons, Option.isSome_none, Bool.false_eq_true,
        if_false]
      apply ih
      rw [State.quiet_eq] at h ⊢
      exact h
    | some c =>
      have h1 := OnTriggerEvent_quiet m n trigger other (ListenerId.resource r.name) ev p hmn H
        c.OnTriggerEvent 0 s t h
      simp only [ForAllResources, hc, List.filter_cons, Option.isSome_some, if_true,
        HandleTriggerEvent]
      generalize OnTriggerEvent m trigger (ListenerId.resource r.name) ev p 0 c.OnTriggerEvent s = r1
        at h1
      generalize OnTriggerEvent n other (ListenerId.resource r.name) ev p 0 c.OnTriggerEvent t = r2
        at h1
      cases r1 <;> cases r2 <;> simp only [Result.quiet, Result.ok.injEq, Result.thrown.injEq,
        reduceCtorEq] at h1 ⊢
      · exact ih _ _ h1.2
      · exact h1

theorem TriggerEvent_quiet (m : Manager) (fuel : Nat) :
    ∀ (ev : EventData) (s t : State), s.quiet = t.quiet →
      (TriggerEvent m fuel ev s).quiet = (TriggerEvent m.withoutMissing fuel ev t).quiet := by
  induction fuel with
  | zero => intro ev s t _; rfl
  | succ fuel ih =>
    intro ev s t h
    have hq := State.quiet_eq.1 h
    obtain ⟨q1, q2, q3, q4, q5, q6, q7⟩ := hq
    have h1 := OnTriggerEvent_quiet m m.withoutMissing (TriggerEvent m fuel)
      (TriggerEvent m.withoutMissing fuel) ListenerId.global ev s.frames.length rfl ih
      m.OnTriggerEvent 0
      { s with frames := s.frames ++ [false],
               m_eventCancelationStack := s.frames.length :: s.m_eventCancelationStack,
               log := s.log ++ [LogEntry.call ev s.frames.length] }
      { t with frames := t.frames ++ [false],
               m_eventCancelationStack := t.frames.length :: t.m_eventCancelationStack,
               log := t.log ++ [LogEntry.call ev t.frames.length] }
      (by rw [State.quiet_eq]; simp only [q1, q2, q3, q4, q5, q6, q7, and_self])
    have hm : m.withoutMissing.OnTriggerEvent = m.OnTriggerEvent := rfl
    simp only [TriggerEvent, hm]
    rw [← q5]
    rw [← q5] at h1
    generalize OnTriggerEvent m (TriggerEvent m fuel) ListenerId.global ev s.frames.length 0
      m.OnTriggerEvent _ = r1 at h1
    generalize OnTriggerEvent m.withoutMissing (TriggerEvent m.withoutMissing fuel)
      ListenerId.global ev s.frames.length 0 m.OnTriggerEvent _ = r2 at h1
    cases r1 <;> cases r2 <;> simp only [Result.quiet, Result.ok.injEq, Result.thrown.injEq,
      reduceCtorEq] at h1 ⊢
    · rename_i v1 u1 v2 u2
      have h2 := ForAllResources_quiet m m.withoutMissing (TriggerEvent m fuel)
        (TriggerEvent m.withoutMissing fuel) ev s.frames.length rfl ih m.resources u1 u2 h1.2
      have hres : m.withoutMissing.resources =
          m.resources.filter fun r => r.eventComponent.isSome := rfl
      rw [hres]
      generalize ForAllResources m (TriggerEvent m fuel) ev s.frames.length m.resources u1 = x1
        at h2
      generalize ForAllResources m.withoutMissing (TriggerEvent m.withoutMissing fuel) ev
        s.frames.length (m.resources.filter fun r => r.eventComponent.isSome) u2 = x2 at h2
      cases x1 <;> cases x2 <;> simp only [Result.quiet, Result.ok.injEq, Result.thrown.injEq,
        reduceCtorEq] at h2 ⊢
      · rename_i w1 a1 w2 a2
        obtain ⟨_, ha⟩ := h2
        obtain ⟨e1, e2, e3, e4, e5, e6, e7⟩ := State.quiet_eq.1 ha
        refine ⟨by rw [e5], ?_⟩
        rw [State.quiet_eq]
        simp only [e1, e2, e3, e4, e5, e6, e7, and_self]
      · obtain ⟨e1, e2, e3, e4, e5, e6, e7⟩ := State.quiet_eq.1 h2
        rw [State.quiet_eq]
        simp only [e1, e2, e3, e4, e5, e6, e7, and_self]
    · obtain ⟨e1, e2, e3, e4, e5, e6, e7⟩ := State.quiet_eq.1 h1
      rw [State.quiet_eq]
      simp only [e1, e2, e3, e4, e5, e6, e7, and_self]

/-! ## A call does not depend on the flags of the enclosing calls -/

theorem SameAbove.getD {n p : Nat} {s t : State} (h : SameAbove n s t) (hp : n ≤ p) :
    t.frames.getD p false = s.frames.getD p false := by
  have e : ∀ l : List Bool, l.getD p false = (l.drop n).getD (p - n) false := by
    intro l
    simp only [List.getD_eq_getElem?_getD, List.getElem?_drop]
    rw [Nat.add_sub_cancel' hp]
  rw [e t.frames, e s.frames, h.above]

theorem SameAbove.written {n p : Nat} {s t : State} (h : SameAbove n s t) (hp : n ≤ p)
    (b : Bool) :
    SameAbove n { s with frames := s.frames.set p b, log := s.log ++ [LogEntry.write p b] }
      { t with frames := t.frames.set p b, log := t.log ++ [LogEntry.write p b] } where
  queue := h.queue
  stack := h.stack
  last := h.last
  locals := h.locals
  log := by
    show t.log ++ _ = s.log ++ _
    rw [h.log]
  console := h.console
  ghost := h.ghost
  len := by
    show (t.frames.set p b).length = (s.frames.set p b).length
    rw [List.length_set, List.length_set, h.len]
  above := by
    show (t.frames.set p b).drop n = (s.frames.set p b).drop n
    simp only [List.drop_set, if_neg (Nat.not_lt.2 hp), h.above]
  le := by
    show n ≤ (s.frames.set p b).length
    rw [List.length_set]
    exact h.le

theorem SameAbove.queued {n : Nat} {s t : State} (h : SameAbove n s t) (m : Manager)
    (ev : EventData) : SameAbove n (fx.QueueEvent m ev s) (fx.QueueEvent m ev t) where
  queue := by simp only [fx.QueueEvent, OnQueueEvent, h.queue]
  stack := h.stack
  last := h.last
  locals := h.locals
  log := by simp only [fx.QueueEvent, OnQueueEvent, h.queue, h.log]
  console := by simp only [fx.QueueEvent, OnQueueEvent, h.console]
  ghost := by simp only [fx.QueueEvent, OnQueueEvent, h.ghost]
  len := h.len
  above := h.above
  le := h.le

theorem runProg_sameAbove (m : Manager) (trigger : EventData → State → Result Bool)
    (n p : Nat) (hp : n ≤ p)
    (H : ∀ ev s t, SameAbove n s t → Result.sameAbove n (trigger ev s) (trigger ev t))
    (prog : Prog) :
    ∀ s t : State, SameAbove n s t →
      Result.sameAbove n (runProg m trigger p prog s) (runProg m trigger p prog t) := by
  induction prog with
  | ret => intro s t h; exact ⟨rfl, h⟩
  | throw => intro s t h; exact h
  | tryCatch body k ihb ihk =>
    intro s t h
    have hc := ihb s t h
    simp only [runProg]
    generalize runProg m trigger p body s = r1 at hc
    generalize runProg m trigger p body t = r2 at hc
    cases r1 <;> cases r2 <;> simp only [Result.sameAbove] at hc
    · exact ihk _ _ _ hc.2
    · exact ihk _ _ _ hc
    · trivial
  | setCanceled b k ih => intro s t h; exact ih _ _ (h.written hp b)
  | getCanceled k ih =>
    intro s t h
    simp only [runProg, h.getD hp]
    exact ih _ s t h
  | triggerEvent ev k ih =>
    intro s t h
    have hc := H ev s t h
    simp only [runProg]
    generalize trigger ev s = r1 at hc
    generalize trigger ev t = r2 at hc
    cases r1 <;> cases r2 <;> simp only [Result.sameAbove] at hc
    · obtain ⟨hv, hst⟩ := hc
      subst hv
      exact ih _ _ _ hst
    · exact hc
    · trivial
  | queueEvent ev k ih => intro s t h; exact ih _ _ (h.queued m ev)
  | resourceQueueEvent r ev k ih =>
    intro s t h
    exact ih _ _
      ⟨h.queue, h.stack, h.last, by simp only [ResourceEventComponent.QueueEvent, h.locals],
        h.log, h.console, by simp only [ResourceEventComponent.QueueEvent, h.ghost], h.len,
        h.above, h.le⟩

theorem OnTriggerEvent_sameAbove (m : Manager) (trigger : EventData → State → Result Bool)
    (mk : Nat → ListenerId) (ev : EventData) (n p : Nat) (hp : n ≤ p)
    (H : ∀ ev s t, SameAbove n s t → Result.sameAbove n (trigger ev s) (trigger ev t))
    (ls : List Listener) :
    ∀ (i : Nat) (s t : State), SameAbove n s t →
      Result.sameAbove n (OnTriggerEvent m trigger mk ev p i ls s)
        (OnTriggerEvent m trigger mk ev p i ls t) := by
  induction ls with
  | nil => intro i s t h; exact ⟨rfl, h⟩
  | cons l ls ih =>
    intro i s t h
    have h1 := runProg_sameAbove m trigger n p hp H (l ev)
      { s with log := s.log ++ [LogEntry.invoke (mk i) ev p] }
      { t with log := t.log ++ [LogEntry.invoke (mk i) ev p] }
      ⟨h.queue, h.stack, h.last, h.locals, by simp only [h.log], h.console, h.ghost, h.len, h.above,
        h.le⟩
    simp only [OnTriggerEvent]
    generalize runProg m trigger p (l ev) { s with log := _ } = r1 at h1
    generalize runProg m trigger p (l ev) { t with log := _ } = r2 at h1
    cases r1 <;> cases r2 <;> simp only [Result.sameAbove] at h1
    · exact ih _ _ _ h1.2
    · exact h1
    · trivial

theorem ForAllResources_sameAbove (m : Manager) (trigger : EventData → State → Result Bool)
    (ev : EventData) (n p : Nat) (hp : n ≤ p)
    (H : ∀ ev s t, SameAbove n s t → Result.sameAbove n (trigger ev s) (trigger ev t))
    (rs : List Resource) :
    ∀ s t : State, SameAbove n s t →
      Result.sameAbove n (ForAllResources m trigger ev p rs s)
        (ForAllResources m trigger ev p rs t) := by
  induction rs with
  | nil => intro s t h; exact ⟨rfl, h⟩
  | cons r rs ih =>
    intro s t h
    cases hc : r.eventComponent with
    | none =>
      simp only [ForAllResources, hc]
      exact ih _ _
        ⟨h.queue, h.stack, h.last, h.locals, h.log, by simp only [h.console], h.ghost, h.len,
          h.above, h.le⟩
    | some c =>
      have h1 := OnTriggerEvent_sameAbove m trigger (ListenerId.resource r.name) ev n p hp H
        c.OnTriggerEvent 0 s t h
      simp only [ForAllResources, hc, HandleTriggerEvent]
      generalize OnTriggerEvent m trigger (ListenerId.resource r.name) ev p 0 c.OnTriggerEvent s = r1
        at h1
      generalize OnTriggerEvent m trigger (ListenerId.resource r.name) ev p 0 c.OnTriggerEvent t = r2
        at h1
      cases r1 <;> cases r2 <;> simp only [Result.sameAbove] at h1
      · exact ih _ _ h1.2
      · exact h1
      · trivial

theorem SameAbove.unwind {n p : Nat} {s t : State} (h : SameAbove n s t) (hp : n ≤ p) :
    SameAbove n { s with frames := s.frames.take p } { t with frames := t.frames.take p } where
  queue := h.queue
  stack := h.stack
  last := h.last
  locals := h.locals
  log := h.log
  console := h.console
  ghost := h.ghost
  len := by simp only [List.length_take, h.len]
  above := by simp only [List.drop_take, h.above]
  le := by
    have := h.le
    simp only [List.length_take]
    omega

theorem TriggerEvent_sameAbove (m : Manager) (n : Nat) (fuel : Nat) :
    ∀ (ev : EventData) (s t : State), SameAbove n s t →
      Result.sameAbove n (TriggerEvent m fuel ev s) (TriggerEvent m fuel ev t) := by
  induction fuel with
  | zero => intro ev s t _; trivial
  | succ fuel ih =>
    intro ev s t h
    have hp : n ≤ s.frames.length := h.le
    have h1 := OnTriggerEvent_sameAbove m (TriggerEvent m fuel) ListenerId.global ev n
      s.frames.length hp ih m.OnTriggerEvent 0
      { s with frames := s.frames ++ [false],
               m_eventCancelationStack := s.frames.length :: s.m_eventCancelationStack,
               log := s.log ++ [LogEntry.call ev s.frames.length] }
      { t with frames := t.frames ++ [false],
               m_eventCancelationStack := s.frames.length :: t.m_eventCancelationStack,
               log := t.log ++ [LogEntry.call ev s.frames.length] }
      ⟨h.queue, by simp only [h.stack], h.last, h.locals, by simp only [h.log], h.console,
        h.ghost, by simp only [List.length_append, h.len],
        by
          rw [List.drop_append_of_le_length (by rw [h.len]; exact hp),
            List.drop_append_of_le_length hp, h.above],
        by simp only [List.length_append]; omega⟩
    simp only [TriggerEvent, h.len]
    generalize OnTriggerEvent m (TriggerEvent m fuel) ListenerId.global ev s.frames.length 0
      m.OnTriggerEvent { s with frames := _, m_eventCancelationStack := _, log := _ } = r1 at h1
    generalize OnTriggerEvent m (TriggerEvent m fuel) ListenerId.global ev s.frames.length 0
      m.OnTriggerEvent { t with frames := _, m_eventCancelationStack := _, log := _ } = r2 at h1
    cases r1 <;> cases r2 <;> simp only [Result.sameAbove] at h1
    · rename_i v1 u1 v2 u2
      have h2 := ForAllResources_sameAbove m (TriggerEvent m fuel) ev n s.frames.length hp ih
        m.resources u1 u2 h1.2
      simp only []
      generalize ForAllResources m (TriggerEvent m fuel) ev s.frames.length m.resources u1 = x1
        at h2
      generalize ForAllResources m (TriggerEvent m fuel) ev s.frames.length m.resources u2 = x2
        at h2
      cases x1 <;> cases x2 <;> simp only [Result.sameAbove] at h2
      · rename_i w1 a1 w2 a2
        have h3 := h2.2
        have hu := h3.unwind hp
        refine And.intro (by rw [h3.getD hp]) ?_
        exact ⟨hu.queue, congrArg List.tail h3.stack, h3.getD hp, hu.locals, hu.log,
          hu.console, hu.ghost, hu.len, hu.above, hu.le⟩
      · exact h2.unwind hp
      · trivial
    · exact h1.unwind hp
    · trivial

/-! ## The codec round trip -/

theorem toNat_ofNat_byte (k : Nat) (h : k < 256) : (Char.ofNat k).toNat = k := by
  have hv : k.isValidChar := Or.inl (by omega)
  unfold Char.ofNat
  rw [dif_pos hv]
  rfl

theorem unpack_str_pack (name : String) (h : name.length < 4294967296) :
    unpack_str (pack name) = some (name, []) := by
  obtain ⟨cs⟩ := name
  have hlen : (String.mk cs).length = cs.length := rfl
  rw [hlen] at h
  simp only [pack, hlen]
  by_cases h1 : cs.length < 32
  · have e : (Char.ofNat (0xa0 + cs.length)).toNat = 0xa0 + cs.length :=
      toNat_ofNat_byte _ (by omega)
    simp only [h1, if_true, List.singleton_append, unpack_str, e]
    rw [if_pos (by omega)]
    simp
  · by_cases h2 : cs.length < 256
    · have e0 : (Char.ofNat 0xd9).toNat = 0xd9 := toNat_ofNat_byte _ (by omega)
      have e1 : (Char.ofNat cs.length).toNat = cs.length := toNat_ofNat_byte _ h2
      simp only [h1, h2, if_true, if_false, List.cons_append, List.nil_append, unpack_str, e0, e1]
      simp
    · by_cases h3 : cs.length < 65536
      · have e0 : (Char.ofNat 0xda).toNat = 0xda := toNat_ofNat_byte _ (by omega)
        have e1 : (Char.ofNat (cs.length / 256)).toNat = cs.length / 256 :=
          toNat_ofNat_byte _ (by omega)
        have e2 : (Char.ofNat (cs.length % 256)).toNat = cs.length % 256 :=
          toNat_ofNat_byte _ (by omega)
        have e3 : cs.length / 256 * 256 + cs.length % 256 = cs.length := by omega
        simp only [h1, h2, h3, if_true, if_false, List.cons_append, List.nil_append, unpack_str,
          e0, e1, e2, e3]
        simp
      · have e0 : (Char.ofNat 0xdb).toNat = 0xdb := toNat_ofNat_byte _ (by omega)
        have e1 : (Char.ofNat (cs.length / 16777216 % 256)).toNat = cs.length / 16777216 % 256 :=
          toNat_ofNat_byte _ (by omega)
        have e2 : (Char.ofNat (cs.length / 65536 % 256)).toNat = cs.length / 65536 % 256 :=
          toNat_ofNat_byte _ (by omega)
        have e3 : (Char.ofNat (cs.length / 256 % 256)).toNat = cs.length / 256 % 256 :=
          toNat_ofNat_byte _ (by omega)
        have e4 : (Char.ofNat (cs.length % 256)).toNat = cs.length % 256 :=
          toNat_ofNat_byte _ (by omega)
        have e5 : cs.length / 16777216 % 256 * 16777216 + cs.length / 65536 % 256 * 65536 +
            cs.length / 256 % 256 * 256 + cs.length % 256 = cs.length := by omega
        simp only [h1, h2, h3, if_true, if_false, List.cons_append, List.nil_append, unpack_str,
          e0, e1, e2, e3, e4, e5]
        simp

theorem unpack_lifecyclePayload (name : String) (h : name.length < 4294967296) :
    unpack (lifecyclePayload name) = some [name] := by
  have e : (Char.ofNat (0x90 + 1)).toNat = 0x91 := toNat_ofNat_byte _ (by omega)
  simp only [unpack, lifecyclePayload, pack_array, Nat.one_lt_ofNat, if_true, List.singleton_append, e]
  simp only [unpack_strs, unpack_str_pack name h]
  simp

/-! ## What dispatch does to the queues -/

theorem managerCalls_append (a b : List QueueCall) :
    managerCalls (a ++ b) = managerCalls a ++ managerCalls b := by
  simp only [managerCalls, List.filterMap_append]

theorem resourceCalls_append (r : String) (a b : List QueueCall) :
    resourceCalls r (a ++ b) = resourceCalls r a ++ resourceCalls r b := by
  simp only [resourceCalls, List.filterMap_append]

theorem lookup_append_singleton (r k : String) (q : List EventData)
    (l : List (String × List EventData)) :
    (l ++ [(k, q)]).lookup r =
      match l.lookup r with
      | some x => some x
      | none => if r = k then some q else none := by
  induction l with
  | nil =>
    by_cases hrk : r = k
    · subst hrk
      simp [List.lookup]
    · have hne : (r == k) = false := by simpa using hrk
      simp [List.lookup, hne, hrk]
  | cons x xs ih =>
    obtain ⟨a, b⟩ := x
    simp only [List.cons_append, List.lookup_cons]
    by_cases hra : r = a
    · subst hra
      simp only [beq_self_eq_true]
    · have hne : (r == a) = false := by simpa using hra
      simp only [hne]
      exact ih

theorem lookup_map_append (r k : String) (ev : EventData) (l : List (String × List EventData)) :
    (l.map fun q => if q.1 = k then (q.1, q.2 ++ [ev]) else q).lookup r =
      (l.lookup r).map fun q => if r = k then q ++ [ev] else q := by
  induction l with
  | nil => rfl
  | cons x xs ih =>
    obtain ⟨a, b⟩ := x
    have hx : (if a = k then (a, b ++ [ev]) else (a, b)) =
        (a, if a = k then b ++ [ev] else b) := by
      by_cases hak : a = k
      · rw [if_pos hak, if_pos hak]
      · rw [if_neg hak, if_neg hak]
    simp only [List.map_cons, hx, List.lookup_cons]
    by_cases hra : r = a
    · subst hra
      simp only [beq_self_eq_true, Option.map_some']
    · have hne : (r == a) = false := by simpa using hra
      simp only [hne]
      exact ih

theorem localQueue_QueueEvent (r k : String) (ev : EventData) (s : State) :
    (ResourceEventComponent.QueueEvent k ev s).localQueue r =
      s.localQueue r ++ (if r = k then [ev] else []) := by
  simp only [State.localQueue, ResourceEventComponent.QueueEvent]
  cases hk : s.localQueues.lookup k with
  | none =>
    simp only [Option.isSome_none, Bool.false_eq_true, if_false, lookup_append_singleton]
    by_cases hrk : r = k
    · subst hrk
      simp [hk]
    · cases hr : s.localQueues.lookup r with
      | none => simp [hrk]
      | some q => simp [hrk]
  | some q0 =>
    simp only [Option.isSome_some, if_true, lookup_map_append]
    by_cases hrk : r = k
    · subst hrk
      simp [hk]
    · cases hr : s.localQueues.lookup r with
      | none => simp [hrk]
      | some q => simp [hrk]

theorem resourceCalls_singleton (r k : String) (ev : EventData) :
    resourceCalls r [QueueCall.resource k ev] = if r = k then [ev] else [] := by
  by_cases hrk : r = k
  · subst hrk
    simp [resourceCalls]
  · have hkr : ¬ k = r := fun h => hrk h.symm
    simp [resourceCalls, hrk, hkr]

theorem Effect.idle (s : State) : Effect s s [] [] :=
  ⟨by simp, by simp, by simp [managerCalls], fun r => by simp [resourceCalls]⟩

theorem Effect.andThen {s t u : State} {n1 n2 : List LogEntry} {c1 c2 : List QueueCall}
    (h1 : Effect s t n1 c1) (h2 : Effect t u n2 c2) : Effect s u (n1 ++ n2) (c1 ++ c2) where
  log := by rw [h2.log, h1.log, List.append_assoc]
  ghost := by rw [h2.ghost, h1.ghost, List.append_assoc]
  queue := by rw [h2.queue, h1.queue, managerCalls_append, List.append_assoc]
  locals := by
    intro r
    rw [h2.locals r, h1.locals r, resourceCalls_append, List.append_assoc]

theorem Effects.after {α : Type} {s t : State} {n1 : List LogEntry} {c1 : List QueueCall}
    {r : Result α} (h1 : Effect s t n1 c1) (h2 : Effects t r) : Effects s r := by
  cases r with
  | ok v u =>
    obtain ⟨new, cs, h⟩ := h2
    exact ⟨_, _, h1.andThen h⟩
  | thrown u =>
    obtain ⟨new, cs, h⟩ := h2
    exact ⟨_, _, h1.andThen h⟩
  | diverge => trivial

theorem Effect.pushed (m : Manager) (ev : EventData) (s : State) :
    Effect s (fx.QueueEvent m ev s)
      ((List.range m.OnQueueEvent).map fun i => LogEntry.notify i ev (s.m_eventQueue ++ [ev]))
      [QueueCall.manager ev] where
  log := rfl
  ghost := rfl
  queue := rfl
  locals := fun r => by simp [fx.QueueEvent, OnQueueEvent, State.localQueue, resourceCalls]

theorem Effect.pushedLocal (k : String) (ev : EventData) (s : State) :
    Effect s (ResourceEventComponent.QueueEvent k ev s) [] [QueueCall.resource k ev] where
  log := by simp [ResourceEventComponent.QueueEvent]
  ghost := rfl
  queue := by simp [ResourceEventComponent.QueueEvent, managerCalls]
  locals := fun r => by rw [localQueue_QueueEvent, resourceCalls_singleton]

theorem Effect.logged (s : State) (e : LogEntry) (fr : List Bool) (st : List Nat) :
    Effect s { s with frames := fr, m_eventCancelationStack := st, log := s.log ++ [e] }
      [e] [] where
  log := rfl
  ghost := by simp
  queue := by simp [managerCalls]
  locals := fun r => by simp [State.localQueue, resourceCalls]

theorem Effect.traced (s : State) (line : String) :
    Effect s { s with console := s.console ++ [line] } [] [] where
  log := by simp
  ghost := by simp
  queue := by simp [managerCalls]
  locals := fun r => by simp [State.localQueue, resourceCalls]

theorem Effect.unwound {s t : State} {new : List LogEntry} {cs : List QueueCall}
    (h : Effect s t new cs) (st : List Nat) (c : Bool) (fr : List Bool) :
    Effect s { t with m_eventCancelationStack := st, m_wasLastEventCanceled := c, frames := fr }
      new cs :=
  ⟨h.log, h.ghost, h.queue, h.locals⟩

theorem runProg_effects (m : Manager) (trigger : EventData → State → Result Bool) (p : Nat)
    (H : ∀ ev s, Effects s (trigger ev s)) (prog : Prog) :
    ∀ s : State, Effects s (runProg m trigger p prog s) := by
  induction prog with
  | ret => intro s; exact ⟨_, _, Effect.idle s⟩
  | throw => intro s; exact ⟨_, _, Effect.idle s⟩
  | tryCatch body k ihb ihk =>
    intro s
    have h := ihb s
    simp only [runProg]
    generalize runProg m trigger p body s = r at h
    cases r with
    | ok v t =>
      obtain ⟨new, cs, h1⟩ := h
      exact Effects.after h1 (ihk true t)
    | thrown t =>
      obtain ⟨new, cs, h1⟩ := h
      exact Effects.after h1 (ihk false t)
    | diverge => trivial
  | setCanceled b k ih =>
    intro s
    have h1 := Effect.logged s (LogEntry.write p b) (s.frames.set p b) s.m_eventCancelationStack
    exact Effects.after h1 (ih _)
  | getCanceled k ih => intro s; exact ih _ s
  | triggerEvent ev k ih =>
    intro s
    have h := H ev s
    simp only [runProg]
    generalize trigger ev s = r at h
    cases r with
    | ok v t =>
      obtain ⟨new, cs, h1⟩ := h
      exact Effects.after h1 (ih v t)
    | thrown t => exact h
    | diverge => trivial
  | queueEvent ev k ih =>
    intro s
    exact Effects.after (Effect.pushed m ev s) (ih _)
  | resourceQueueEvent r ev k ih =>
    intro s
    exact Effects.after (Effect.pushedLocal r ev s) (ih _)

theorem OnTriggerEvent_effects (m : Manager) (trigger : EventData → State → Result Bool)
    (mk : Nat → ListenerId) (ev : EventData) (p : Nat)
    (H : ∀ ev s, Effects s (trigger ev s)) (ls : List Listener) :
    ∀ (i : Nat) (s : State), Effects s (OnTriggerEvent m trigger mk ev p i ls s) := by
  induction ls with
  | nil => intro i s; exact ⟨_, _, Effect.idle s⟩
  | cons l ls ih =>
    intro i s
    have h0 := Effect.logged s (LogEntry.invoke (mk i) ev p) s.frames s.m_eventCancelationStack
    have h1 := runProg_effects m trigger p H (l ev)
      { s with log := s.log ++ [LogEntry.invoke (mk i) ev p] }
    simp only [OnTriggerEvent]
    generalize runProg m trigger p (l ev) _ = r at h1
    cases r with
    | ok v t =>
      obtain ⟨new, cs, h2⟩ := h1
      exact Effects.after (h0.andThen h2) (ih (i + 1) t)
    | thrown t =>
      obtain ⟨new, cs, h2⟩ := h1
      exact ⟨_, _, h0.andThen h2⟩
    | diverge => trivial

theorem ForAllResources_effects (m : Manager) (trigger : EventData → State → Result Bool)
    (ev : EventData) (p : Nat)
    (H : ∀ ev s, Effects s (trigger ev s)) (rs : List Resource) :
    ∀ s : State, Effects s (ForAllResources m trigger ev p rs s) := by
  induction rs with
  | nil => intro s; exact ⟨_, _, Effect.idle s⟩
  | cons r rs ih =>
    intro s
    cases hc : r.eventComponent with
    | none =>
      simp only [ForAllResources, hc]
      exact Effects.after (Effect.traced s _) (ih _)
    | some c =>
      have h1 := OnTriggerEvent_effects m trigger (ListenerId.resource r.name) ev p H
        c.OnTriggerEvent 0 s
      simp only [ForAllResources, hc, HandleTriggerEvent]
      generalize OnTriggerEvent m trigger (ListenerId.resource r.name) ev p 0 c.OnTriggerEvent s = x
        at h1
      cases x with
      | ok v t =>
        obtain ⟨new, cs, h2⟩ := h1
        exact Effects.after h2 (ih t)
      | thrown t => exact h1
      | diverge => trivial

theorem TriggerEvent_effects (m : Manager) (fuel : Nat) :
    ∀ (ev : EventData) (s : State), Effects s (TriggerEvent m fuel ev s) := by
  induction fuel with
  | zero => intro ev s; trivial
  | succ fuel ih =>
    intro ev s
    have h0 := Effect.logged s (LogEntry.call ev s.frames.length)
      (s.frames ++ [false]) (s.frames.length :: s.m_eventCancelationStack)
    have h1 := OnTriggerEvent_effects m (TriggerEvent m fuel) ListenerId.global ev
      s.frames.length ih m.OnTriggerEvent 0
      { s with frames := s.frames ++ [false],
               m_eventCancelationStack := s.frames.length :: s.m_eventCancelationStack,
               log := s.log ++ [LogEntry.call ev s.frames.length] }
    simp only [TriggerEvent]
    generalize OnTriggerEvent m (TriggerEvent m fuel) ListenerId.global ev s.frames.length 0
      m.OnTriggerEvent _ = r1 at h1
    cases r1 with
    | diverge => trivial
    | thrown t =>
      obtain ⟨new, cs, h2⟩ := h1
      exact ⟨_, _, (h0.andThen h2).unwound _ _ _⟩
    | ok v t =>
      obtain ⟨new, cs, h2⟩ := h1
      have h3 := ForAllResources_effects m (TriggerEvent m fuel) ev s.frames.length ih
        m.resources t
      simp only []
      generalize ForAllResources m (TriggerEvent m fuel) ev s.frames.length m.resources t = r2
        at h3
      cases r2 with
      | diverge => trivial
      | thrown u =>
        obtain ⟨new2, cs2, h4⟩ := h3
        exact ⟨_, _, ((h0.andThen h2).andThen h4).unwound _ _ _⟩
      | ok w u =>
        obtain ⟨new2, cs2, h4⟩ := h3
        exact ⟨_, _, ((h0.andThen h2).andThen h4).unwound _ _ _⟩

/-! ## Tick drains whatever is enqueued meanwhile -/

theorem Effects.length_le {α : Type} {s t : State} {v : α}
    (h : Effects s (Result.ok v t)) : s.m_eventQueue.length ≤ t.m_eventQueue.length := by
  obtain ⟨new, cs, he⟩ := h
  rw [he.queue, List.length_append]
  exact Nat.le_add_right _ _

theorem Effects.length_le_thrown {α : Type} {s t : State}
    (h : Effects s (Result.thrown t : Result α)) :
    s.m_eventQueue.length ≤ t.m_eventQueue.length := by
  obtain ⟨new, cs, he⟩ := h
  rw [he.queue, List.length_append]
  exact Nat.le_add_right _ _

theorem runProg_enqueues (m : Manager) (trigger : EventData → State → Result Bool) (p : Nat)
    (H : ∀ ev s, Effects s (trigger ev s)) (prog : Prog) :
    prog.enqueues = true → ∀ s t : State, runProg m trigger p prog s = Result.ok () t →
      s.m_eventQueue.length < t.m_eventQueue.length := by
  induction prog with
  | ret => intro hq; simp [Prog.enqueues] at hq
  | throw => intro hq; simp [Prog.enqueues] at hq
  | tryCatch body k ihb ihk =>
    intro hq s t h
    simp only [Prog.enqueues, Bool.and_eq_true, Bool.or_eq_true] at hq
    simp only [runProg] at h
    have he := runProg_effects m trigger p H body s
    cases hx : runProg m trigger p body s with
    | ok v u =>
      rw [hx] at h he
      simp only [] at h
      have hle := Effects.length_le he
      have he2 := runProg_effects m trigger p H (k true) u
      rw [h] at he2
      have hle2 := Effects.length_le he2
      rcases hq.1 with hb | hk
      · have hlt := ihb hb s u hx
        omega
      · have hlt := ihk true hk u t h
        omega
    | thrown u =>
      rw [hx] at h he
      simp only [] at h
      have hle := Effects.length_le_thrown he
      have hlt := ihk false hq.2 u t h
      omega
    | diverge => rw [hx] at h; simp at h
  | setCanceled b k ih =>
    intro hq s t h
    simp only [runProg] at h
    have hlt := ih hq _ t h
    exact hlt
  | getCanceled k ih =>
    intro hq s t h
    simp only [Prog.enqueues, Bool.and_eq_true] at hq
    simp only [runProg] at h
    cases hb : s.frames.getD p false with
    | true => rw [hb] at h; exact ih true hq.1 s t h
    | false => rw [hb] at h; exact ih false hq.2 s t h
  | triggerEvent ev k ih =>
    intro hq s t h
    simp only [Prog.enqueues, Bool.and_eq_true] at hq
    have he := H ev s
    simp only [runProg] at h
    generalize trigger ev s = r at h he
    cases r with
    | ok v u =>
      have hle := Effects.length_le he
      simp only [] at h
      cases v with
      | true => exact Nat.lt_of_le_of_lt hle (ih true hq.1 u t h)
      | false => exact Nat.lt_of_le_of_lt hle (ih false hq.2 u t h)
    | thrown u => simp at h
    | diverge => simp at h
  | queueEvent ev k ih =>
    intro _ s t h
    simp only [runProg] at h
    have he := runProg_effects m trigger p H k (fx.QueueEvent m ev s)
    rw [h] at he
    have hle := Effects.length_le he
    have hq1 : (fx.QueueEvent m ev s).m_eventQueue.length = s.m_eventQueue.length + 1 := by
      simp [fx.QueueEvent, OnQueueEvent]
    omega
  | resourceQueueEvent r ev k ih =>
    intro hq s t h
    simp only [runProg] at h
    have hlt := ih hq _ t h
    exact hlt

theorem OnTriggerEvent_enqueues (m : Manager) (trigger : EventData → State → Result Bool)
    (mk : Nat → ListenerId) (ev : EventData) (p : Nat)
    (H : ∀ ev s, Effects s (trigger ev s)) (ls : List Listener) :
    (∃ l ∈ ls, ∀ ev, (l ev).enqueues = true) →
      ∀ (i : Nat) (s t : State), OnTriggerEvent m trigger mk ev p i ls s = Result.ok () t →
        s.m_eventQueue.length < t.m_eventQueue.length := by
  induction ls with
  | nil => rintro ⟨l, hl, _⟩; simp at hl
  | cons l0 ls ih =>
    rintro ⟨l, hl, hq⟩ i s t h
    simp only [OnTriggerEvent] at h
    have he := runProg_effects m trigger p H (l0 ev)
      { s with log := s.log ++ [LogEntry.invoke (mk i) ev p] }
    cases hx : runProg m trigger p (l0 ev)
        { s with log := s.log ++ [LogEntry.invoke (mk i) ev p] } with
    | thrown u => rw [hx] at h; simp at h
    | diverge => rw [hx] at h; simp at h
    | ok v u =>
      rw [hx] at h he
      simp only [] at h
      have hle : s.m_eventQueue.length ≤ u.m_eventQueue.length := by
        have := Effects.length_le he
        exact this
      have he2 := OnTriggerEvent_effects m trigger mk ev p H ls (i + 1) u
      rw [h] at he2
      have hle2 := Effects.length_le he2
      rcases List.mem_cons.1 hl with rfl | hmem
      · have hlt0 := runProg_enqueues m trigger p H (l ev) (hq ev) _ u hx
        have hlt : s.m_eventQueue.length < u.m_eventQueue.length := hlt0
        omega
      · have hlt := ih ⟨l, hmem, hq⟩ (i + 1) u t h
        omega

theorem ForAllResources_enqueues (m : Manager) (trigger : EventData → State → Result Bool)
    (ev : EventData) (p : Nat)
    (H : ∀ ev s, Effects s (trigger ev s)) (rs : List Resource) :
    (∃ r ∈ rs, ∃ c, r.eventComponent = some c ∧
        ∃ l ∈ c.OnTriggerEvent, ∀ ev, (l ev).enqueues = true) →
      ∀ s t : State, ForAllResources m trigger ev p rs s = Result.ok () t →
        s.m_eventQueue.length < t.m_eventQueue.length := by
  induction rs with
  | nil => rintro ⟨r, hr, _⟩; simp at hr
  | cons r0 rs ih =>
    rintro ⟨r, hr, c, hc, hl⟩ s t h
    cases hc0 : r0.eventComponent with
    | none =>
      simp only [ForAllResources, hc0] at h
      rcases List.mem_cons.1 hr with rfl | hmem
      · rw [hc0] at hc; cases hc
      · have hlt := ih ⟨r, hmem, c, hc, hl⟩ _ t h
        exact hlt
    | some c0 =>
      simp only [ForAllResources, hc0, HandleTriggerEvent] at h
      have he := OnTriggerEvent_effects m trigger (ListenerId.resource r0.name) ev p H
        c0.OnTriggerEvent 0 s
      cases hx : OnTriggerEvent m trigger (ListenerId.resource r0.name) ev p 0
          c0.OnTriggerEvent s with
      | thrown u => rw [hx] at h; simp at h
      | diverge => rw [hx] at h; simp at h
      | ok v u =>
        rw [hx] at h he
        simp only [] at h
        have hle : s.m_eventQueue.length ≤ u.m_eventQueue.length := Effects.length_le he
        have he2 := ForAllResources_effects m trigger ev p H rs u
        rw [h] at he2
        have hle2 := Effects.length_le he2
        rcases List.mem_cons.1 hr with rfl | hmem
        · rw [hc0] at hc
          cases hc
          have hlt : s.m_eventQueue.length < u.m_eventQueue.length :=
            OnTriggerEvent_enqueues m trigger (ListenerId.resource r.name) ev p H
              _ hl 0 s u hx
          omega
        · have hlt := ih ⟨r, hmem, c, hc, hl⟩ u t h
          omega

theorem TriggerEvent_enqueues (m : Manager) (hre : m.requeues) (fuel : Nat) (ev : EventData)
    (s : State) (b : Bool) (t : State) (h : TriggerEvent m fuel ev s = Result.ok b t) :
    s.m_eventQueue.length < t.m_eventQueue.length := by
  cases fuel with
  | zero => simp [TriggerEvent] at h
  | succ fuel =>
    have H := TriggerEvent_effects m fuel
    simp only [TriggerEvent] at h
    have he := OnTriggerEvent_effects m (TriggerEvent m fuel) ListenerId.global ev
      s.frames.length H m.OnTriggerEvent 0
      { s with frames := s.frames ++ [false],
               m_eventCancelationStack := s.frames.length :: s.m_eventCancelationStack,
               log := s.log ++ [LogEntry.call ev s.frames.length] }
    cases hx : OnTriggerEvent m (TriggerEvent m fuel) ListenerId.global ev s.frames.length 0
        m.OnTriggerEvent
        { s with frames := s.frames ++ [false],
                 m_eventCancelationStack := s.frames.length :: s.m_eventCancelationStack,
                 log := s.log ++ [LogEntry.call ev s.frames.length] } with
    | diverge => rw [hx] at h; simp at h
    | thrown u => rw [hx] at h; simp at h
    | ok v u =>
      rw [hx] at h he
      simp only [] at h
      have hle : s.m_eventQueue.length ≤ u.m_eventQueue.length := by
        have := Effects.length_le he
        exact this
      have he2 := ForAllResources_effects m (TriggerEvent m fuel) ev s.frames.length H
        m.resources u
      cases hy : ForAllResources m (TriggerEvent m fuel) ev s.frames.length m.resources u with
      | diverge => rw [hy] at h; simp at h
      | thrown w => rw [hy] at h; simp at h
      | ok x w =>
        rw [hy] at h he2
        simp only [Result.ok.injEq] at h
        obtain ⟨_, ht⟩ := h
        have hle2 : u.m_eventQueue.length ≤ w.m_eventQueue.length := Effects.length_le he2
        have htq : t.m_eventQueue = w.m_eventQueue := by rw [← ht]
        rw [htq]
        rcases hre with hg | hr
        · have hlt0 := OnTriggerEvent_enqueues m (TriggerEvent m fuel) ListenerId.global ev
            s.frames.length H m.OnTriggerEvent hg 0 _ u hx
          have hlt : s.m_eventQueue.length < u.m_eventQueue.length := hlt0
          omega
        · have hlt := ForAllResources_enqueues m (TriggerEvent m fuel) ev s.frames.length H
            m.resources hr u w hy
          omega

theorem Tick_never_returns (m : Manager) (depth : Nat) (hre : m.requeues) (bound : Nat) :
    ∀ s t : State, s.m_eventQueue ≠ [] → Tick m depth bound s ≠ Result.ok () t := by
  induction bound with
  | zero =>
    intro s t hne h
    cases hq : s.m_eventQueue with
    | nil => exact hne hq
    | cons ev rest => simp [Tick, hq] at h
  | succ k ih =>
    intro s t hne h
    cases hq : s.m_eventQueue with
    | nil => exact hne hq
    | cons ev rest =>
      simp only [Tick, hq] at h
      cases hx : TriggerEvent m depth ev { s with m_eventQueue := rest } with
      | diverge => rw [hx] at h; simp at h
      | thrown u => rw [hx] at h; simp at h
      | ok b u =>
        rw [hx] at h
        have hlt := TriggerEvent_enqueues m hre depth ev { s with m_eventQueue := rest } b u hx
        refine ih u t ?_ h
        intro hu
        rw [hu] at hlt
        simp at hlt

theorem Tick_eq_TickTurns (m : Manager) (depth : Nat) (k : Nat) :
    ∀ s : State, Tick m depth k s =
      match TickTurns m depth k s with
      | .ok _ t =>
          (match t.m_eventQueue with
          | [] => .ok () t
          | _ :: _ => .diverge)
      | .thrown t => .thrown t
      | .diverge => .diverge := by
  induction k with
  | zero =>
    intro s
    cases hq : s.m_eventQueue <;> simp [Tick, TickTurns, hq]
  | succ k ih =>
    intro s
    cases hq : s.m_eventQueue with
    | nil => simp [Tick, TickTurns, hq]
    | cons ev rest =>
      cases hx : TriggerEvent m depth ev { s with m_eventQueue := rest } with
      | diverge => simp only [Tick, TickTurns, hq, hx]
      | thrown u => simp only [Tick, TickTurns, hq, hx]
      | ok b u =>
        simp only [Tick, TickTurns, hq, hx]
        exact ih u

theorem TickTurns_requeues (m : Manager) (depth : Nat) (hre : m.requeues) (k : Nat) :
    ∀ s t : State, s.m_eventQueue ≠ [] → TickTurns m depth k s = Result.ok () t →
      t.m_eventQueue ≠ [] := by
  induction k with
  | zero =>
    intro s t hne h
    simp only [TickTurns, Result.ok.injEq, true_and] at h
    subst h
    exact hne
  | succ k ih =>
    intro s t hne h
    cases hq : s.m_eventQueue with
    | nil => exact absurd hq hne
    | cons ev rest =>
      simp only [TickTurns, hq] at h
      cases hx : TriggerEvent m depth ev { s with m_eventQueue := rest } with
      | diverge => rw [hx] at h; simp at h
      | thrown u => rw [hx] at h; simp at h
      | ok b u =>
        rw [hx] at h
        have hlt := TriggerEvent_enqueues m hre depth ev { s with m_eventQueue := rest } b u hx
        refine ih u t ?_ h
        intro hu
        rw [hu] at hlt
        simp at hlt
/-! ## The resource tick -/

theorem lastWrite_true_of_no_reset (p : Nat) (post : List LogEntry)
    (h : LogEntry.write p false ∉ post) : lastWrite p post true = true := by
  induction post with
  | nil => rfl
  | cons e es ih =>
    have hes : LogEntry.write p false ∉ es := fun hx => h (List.mem_cons_of_mem _ hx)
    have he : e ≠ LogEntry.write p false := fun hx => h (hx ▸ List.mem_cons_self _ _)
    cases e with
    | write q b =>
      by_cases hq : q = p
      · subst hq
        cases b with
        | true => simpa only [lastWrite, if_true] using ih hes
        | false => exact absurd rfl he
      · simpa only [lastWrite, hq, if_false] using ih hes
    | call _ _ => simpa only [lastWrite] using ih hes
    | invoke _ _ _ => simpa only [lastWrite] using ih hes
    | notify _ _ _ => simpa only [lastWrite] using ih hes

/-- C1: a `TriggerEvent` call that returns normally has invoked, with its own
flag and with the name, payload and source it was called with, every global
trigger listener once, in registration order, and then every local listener of
every resource that has an event component once, in `ForAllResources` order;
the listeners are arbitrary, so none is skipped whatever the flag holds. -/
theorem TriggerEvent_invokes_every_listener (m : Manager) (fuel : Nat) (ev : EventData)
    (s : State) (b : Bool) (t : State) (h : TriggerEvent m fuel ev s = Result.ok b t) :
    ∃ new, t.log = s.log ++ LogEntry.call ev s.frames.length :: new ∧
      direct s.frames.length new =
        ((List.range m.OnTriggerEvent.length).map fun i =>
            LogEntry.invoke (ListenerId.global i) ev s.frames.length) ++
          m.resources.flatMap fun r =>
            match r.eventComponent with
            | none => []
            | some c => (List.range c.OnTriggerEvent.length).map fun i =>
                LogEntry.invoke (ListenerId.resource r.name i) ev s.frames.length := by
  have hs := TriggerEvent_spec m fuel ev s
  rw [h] at hs
  obtain ⟨_, _, _, new, hl, _, _, hd, _⟩ := hs
  exact ⟨new, hl, hd⟩

/-- C1 at the five listeners of `exMixed`, the second of which cancels. -/
theorem TriggerEvent_invokes_every_listener_witness :
    ∃ new, exMixedFinal.log = State.init.log ++ LogEntry.call exEvent 0 :: new ∧
      direct 0 new =
        [LogEntry.invoke (ListenerId.global 0) exEvent 0,
         LogEntry.invoke (ListenerId.global 1) exEvent 0,
         LogEntry.invoke (ListenerId.resource "a" 0) exEvent 0,
         LogEntry.invoke (ListenerId.resource "c" 0) exEvent 0,
         LogEntry.invoke (ListenerId.resource "c" 1) exEvent 0] :=
  TriggerEvent_invokes_every_listener exMixed 1 exEvent State.init false
    exMixedFinal
    (by decide)

/-- C2 as stated fails: in `exReset` the global listener sets the flag to
`true`, the listener of resource `a` then writes `false`, and `TriggerEvent`
returns `true`. -/
theorem TriggerEvent_cancel_then_reset :
    TriggerEvent exReset 1 exEvent State.init =
      Result.ok true
        { State.init with
            log := [LogEntry.call exEvent 0, LogEntry.invoke (ListenerId.global 0) exEvent 0,
              LogEntry.write 0 true, LogEntry.invoke (ListenerId.resource "a" 0) exEvent 0,
              LogEntry.write 0 false] } := by
  decide

/-- C2, amended: if a listener sets the flag of a `TriggerEvent` call to `true`
and no later write to that flag stores `false`, the call returns `false`. -/
theorem TriggerEvent_cancel_reaches_return (m : Manager) (fuel : Nat) (ev : EventData)
    (s : State) (b : Bool) (t : State) (h : TriggerEvent m fuel ev s = Result.ok b t)
    (pre post : List LogEntry)
    (hlog : t.log = s.log ++ LogEntry.call ev s.frames.length ::
      (pre ++ LogEntry.write s.frames.length true :: post))
    (hpost : LogEntry.write s.frames.length false ∉ post) :
    TriggerEvent m fuel ev s = Result.ok false t := by
  have hs := TriggerEvent_spec m fuel ev s
  rw [h] at hs
  obtain ⟨_, _, _, new, hl, _, hb, _, _⟩ := hs
  rw [hl] at hlog
  have hnew : new = pre ++ LogEntry.write s.frames.length true :: post := by
    simpa using hlog
  have hbf : b = false := by
    rw [hb, hnew, lastWrite_append]
    simp only [lastWrite, if_true]
    rw [lastWrite_true_of_no_reset _ _ hpost]
    rfl
  rw [h, hbf]

/-- C2, amended, at `exMixed`: the second of five listeners cancels, nobody
resets, the call returns `false`. -/
theorem TriggerEvent_cancel_reaches_return_witness :
    TriggerEvent exMixed 1 exEvent State.init = Result.ok false exMixedFinal :=
  TriggerEvent_cancel_reaches_return exMixed 1 exEvent State.init false
    exMixedFinal
    (by decide)
    [LogEntry.invoke (ListenerId.global 0) exEvent 0, LogEntry.invoke (ListenerId.global 1) exEvent 0]
    [LogEntry.invoke (ListenerId.resource "a" 0) exEvent 0,
     LogEntry.invoke (ListenerId.resource "c" 0) exEvent 0,
     LogEntry.invoke (ListenerId.resource "c" 1) exEvent 0]
    (by decide) (by decide)

/-! ## The cancellation stack -/

/-- C4 fails on the code: in `exCatching` the listener handles `"outer"` by
calling `TriggerEvent("inner")` inside a `try` block; the nested call fails and
leaves the frame it pushed (address 1) on the stack, the listener catches the
failure, and the outer call returns normally. Its `pop` has removed the frame
left by the failed call, and its own frame (address 0) is still on
`m_eventCancelationStack`, which was empty before the call: depth 1 at return,
0 at entry. -/
theorem TriggerEvent_caught_failure_unbalanced :
    State.init.m_eventCancelationStack = [] ∧
      TriggerEvent exCatching 2 exOuter State.init =
        Result.ok true
          { State.init with
              m_eventCancelationStack := [0],
              log := [LogEntry.call exOuter 0, LogEntry.invoke (ListenerId.global 0) exOuter 0,
                LogEntry.call exInner 1, LogEntry.invoke (ListenerId.global 0) exInner 1] } := by
  decide

/-- A `TriggerEvent` call that returns normally leaves the entries that were
on the stack at entry in place; frames of failed nested calls may lie on top. -/
theorem TriggerEvent_ok_stack (m : Manager) (fuel : Nat) (ev : EventData)
    (s : State) (b : Bool) (t : State) (h : TriggerEvent m fuel ev s = Result.ok b t) :
    ∃ extra, t.m_eventCancelationStack = extra ++ s.m_eventCancelationStack := by
  have hs := TriggerEvent_spec m fuel ev s
  rw [h] at hs
  exact hs.2.1

/-- C5 fails on the code: in `exFailing` the listener of resource `a` throws;
the call is left with the frame it pushed (address 0) still on
`m_eventCancelationStack`, which was empty before the call. -/
theorem TriggerEvent_failure_leaves_frame :
    TriggerEvent exFailing 1 exEvent State.init =
      Result.thrown
        { State.init with
            m_eventCancelationStack := [0],
            log := [LogEntry.call exEvent 0, LogEntry.invoke (ListenerId.global 0) exEvent 0,
              LogEntry.invoke (ListenerId.resource "a" 0) exEvent 0] } := by
  decide

/-- Every failed `TriggerEvent` call leaves the frame it pushed on the stack. -/
theorem TriggerEvent_thrown_stack (m : Manager) (fuel : Nat) (ev : EventData)
    (s t : State) (h : TriggerEvent m fuel ev s = Result.thrown t) :
    ∃ extra, t.m_eventCancelationStack =
      extra ++ s.frames.length :: s.m_eventCancelationStack := by
  have hs := TriggerEvent_spec m fuel ev s
  rw [h] at hs
  exact hs.2.1

/-- C6: for every `TriggerEvent` call, outer or made by a listener of another
call, the value it returns is the negation of the last value written to its
own flag (`false` if none was written); nothing written during the call goes
to a flag at a lower address, where the flags of the enclosing calls live, and
at return those flags hold what they held at entry. The call does not depend
on what the enclosing flags hold: with other values `fr` in them it returns
the same value in the same state. A listener that made the call while running
with the flag at `p` goes on with that value. -/
theorem TriggerEvent_reentrant (m : Manager) (fuel : Nat) (ev : EventData)
    (s : State) (b : Bool) (t : State) (h : TriggerEvent m fuel ev s = Result.ok b t) :
    (∃ new, t.log = s.log ++ LogEntry.call ev s.frames.length :: new ∧
        b = !lastWrite s.frames.length new false ∧
        ∀ q c, LogEntry.write q c ∈ new → s.frames.length ≤ q) ∧
      t.frames = s.frames ∧
      (∀ fr : List Bool, fr.length = s.frames.length →
        TriggerEvent m fuel ev { s with frames := fr } = Result.ok b { t with frames := fr }) ∧
      ∀ (p : Nat) (k : Bool → Prog),
        runProg m (TriggerEvent m fuel) p (Prog.triggerEvent ev k) s =
          runProg m (TriggerEvent m fuel) p (k b) t := by
  have hs := TriggerEvent_spec m fuel ev s
  rw [h] at hs
  obtain ⟨hf, _, _, new, hl, ha, hb, _, _⟩ := hs
  refine ⟨⟨new, hl, hb, fun q c hq => ha _ hq⟩, hf, ?_, ?_⟩
  · intro fr hfr
    have hsa : SameAbove s.frames.length s { s with frames := fr } :=
      ⟨rfl, rfl, rfl, rfl, rfl, rfl, rfl, hfr,
        by
          show fr.drop s.frames.length = s.frames.drop s.frames.length
          rw [List.drop_eq_nil_of_le (Nat.le_of_eq hfr), List.drop_eq_nil_of_le (Nat.le_refl _)],
        Nat.le_refl _⟩
    have hn := TriggerEvent_sameAbove m s.frames.length fuel ev s _ hsa
    have hc := TriggerEvent_spec m fuel ev { s with frames := fr }
    rw [h] at hn
    generalize TriggerEvent m fuel ev { s with frames := fr } = r at hn hc
    cases r with
    | ok c u =>
      obtain ⟨hbc, hu⟩ := hn
      have huf : u.frames = fr := hc.1
      subst hbc
      congr 1
      cases u
      cases t
      have h1 := hu.queue
      have h2 := hu.stack
      have h3 := hu.last
      have h4 := hu.locals
      have h5 := hu.log
      have h6 := hu.console
      have h7 := hu.ghost
      simp only at h1 h2 h3 h4 h5 h6 h7 huf
      simp only [State.mk.injEq]
      exact ⟨h1, h2, h3, h4, huf, h5, h6, h7⟩
    | thrown u => exact hn.elim
    | diverge => exact hn.elim
  · intro p k
    simp only [runProg, h]

/-- C6 at the listener `nesting ic oc`: for the four combinations the inner
call returns `!ic` (the listener queues an event named after what it got) and
the outer call returns `!oc`; the first combination also with an enclosing
flag that holds `true`. -/
theorem TriggerEvent_reentrant_witness :
    ((∃ new, (exNestedFinal true false State.inDispatch 1).log =
          State.inDispatch.log ++ LogEntry.call exOuter 1 :: new ∧
        true = !lastWrite 1 new false ∧
        ∀ q c, LogEntry.write q c ∈ new → 1 ≤ q) ∧
      (exNestedFinal true false State.inDispatch 1).frames = State.inDispatch.frames ∧
      (∀ fr : List Bool, fr.length = State.inDispatch.frames.length →
        TriggerEvent (exNested true false) 2 exOuter { State.inDispatch with frames := fr } =
          Result.ok true { exNestedFinal true false State.inDispatch 1 with frames := fr }) ∧
      ∀ (p : Nat) (k : Bool → Prog),
        runProg (exNested true false) (TriggerEvent (exNested true false) 2) p
            (Prog.triggerEvent exOuter k) State.inDispatch =
          runProg (exNested true false) (TriggerEvent (exNested true false) 2) p (k true)
            (exNestedFinal true false State.inDispatch 1)) ∧
      TriggerEvent (exNested false false) 2 exOuter State.init =
        Result.ok true (exNestedFinal false false State.init 0) ∧
      TriggerEvent (exNested false true) 2 exOuter State.init =
        Result.ok false (exNestedFinal false true State.init 0) ∧
      TriggerEvent (exNested true false) 2 exOuter State.init =
        Result.ok true (exNestedFinal true false State.init 0) ∧
      TriggerEvent (exNested true true) 2 exOuter State.init =
        Result.ok false (exNestedFinal true true State.init 0) :=
  ⟨TriggerEvent_reentrant (exNested true false) 2 exOuter State.inDispatch true
      (exNestedFinal true false State.inDispatch 1) (by decide),
    by decide, by decide, by decide, by decide⟩

/-- C7: when `TriggerEvent` returns normally, `m_wasLastEventCanceled` holds
the final value of the flag of that call (the last value written to it,
`false` if none) and the returned boolean is its negation; writes made to the
flags of nested calls do not count. -/
theorem TriggerEvent_sets_wasLastEventCanceled (m : Manager) (fuel : Nat) (ev : EventData)
    (s : State) (b : Bool) (t : State) (h : TriggerEvent m fuel ev s = Result.ok b t) :
    b = !t.m_wasLastEventCanceled ∧
      ∃ new, t.log = s.log ++ LogEntry.call ev s.frames.length :: new ∧
        t.m_wasLastEventCanceled = lastWrite s.frames.length new false := by
  have hs := TriggerEvent_spec m fuel ev s
  rw [h] at hs
  obtain ⟨_, _, hw, new, hl, _, hb, _, _⟩ := hs
  refine ⟨by rw [hw, Bool.not_not], new, hl, ?_⟩
  rw [hw, hb, Bool.not_not]

/-- C7 at a nested call that is canceled inside an outer call that is not:
after the outer call the slot holds `false`, the outcome of the outer call. -/
theorem TriggerEvent_sets_wasLastEventCanceled_witness :
    true = !(exNestedFinal true false State.init 0).m_wasLastEventCanceled ∧
      ∃ new, (exNestedFinal true false State.init 0).log =
          State.init.log ++ LogEntry.call exOuter 0 :: new ∧
        (exNestedFinal true false State.init 0).m_wasLastEventCanceled =
          lastWrite 0 new false :=
  TriggerEvent_sets_wasLastEventCanceled (exNested true false) 2 exOuter State.init true
    (exNestedFinal true false State.init 0) (by decide)

/-! ## Queueing -/

/-- C9: `QueueEvent` appends the record at the tail of the global queue, then
invokes each of the connected queue listeners once, in order, with that record
and with the queue already holding it; besides the `trace` line nothing else
changes: no trigger listener runs, the cancellation stack, the flags,
`m_wasLastEventCanceled` and the local queues are as before. The `trace` line
shows the name up to its first NUL, as `%s` prints `c_str()`. -/
theorem QueueEvent_effect (m : Manager) (ev : EventData) (s : State) :
    (QueueEvent m ev s).m_eventQueue = s.m_eventQueue ++ [ev] ∧
      (QueueEvent m ev s).log =
        s.log ++ (List.range m.OnQueueEvent).map
          (fun i => LogEntry.notify i ev (s.m_eventQueue ++ [ev])) ∧
      (QueueEvent m ev s).m_eventCancelationStack = s.m_eventCancelationStack ∧
      (QueueEvent m ev s).m_wasLastEventCanceled = s.m_wasLastEventCanceled ∧
      (QueueEvent m ev s).frames = s.frames ∧
      (QueueEvent m ev s).localQueues = s.localQueues ∧
      (QueueEvent m ev s).console =
        s.console ++ ["queue event " ++ c_str ev.eventName ++ "\n"] :=
  ⟨rfl, rfl, rfl, rfl, rfl, rfl, rfl⟩

/-- C3 as stated fails: `"a"` and `"b"` are queued on `exFailingOnA`, whose
only listener does not enqueue and fails on `"a"`; the next `Tick` ends with
that failure after one `TriggerEvent` call, and `"b"` is still in the queue. -/
theorem Tick_stops_at_failure :
    exFailingOnA.noQueue ∧
      Tick exFailingOnA 1 2
          ([exA, exB].foldl (fun s r => QueueEvent exFailingOnA r s) State.init) =
        Result.thrown
          { State.init with
              m_eventQueue := [exB],
              m_eventCancelationStack := [0],
              log := [LogEntry.call exA 0, LogEntry.invoke (ListenerId.global 0) exA 0],
              console := ["queue event a\n", "queue event b\n"],
              queueCalls := [QueueCall.manager exA, QueueCall.manager exB] } := by
  refine ⟨⟨?_, ?_⟩, by decide⟩
  · intro l hl ev
    simp only [exFailingOnA, List.mem_singleton] at hl
    subst hl
    unfold failingOn
    split <;> rfl
  · intro r hr
    simp [exFailingOnA] at hr

/-- C3, amended: records queued by `QueueEvent` calls `r1..rn` on an empty
global queue sit in the queue in that order. If no trigger listener enqueues,
the loop of the next `Tick` needs no more than `n` turns (with more turns
allowed the outcome is the same), and it fails to produce an outcome only if
one of its `TriggerEvent` calls does. When that `Tick` returns normally the
queue is empty and the `TriggerEvent` calls it made itself are exactly
`r1..rn`, in that order, each with the record unchanged. When it ends with the
failure of a listener, it has called `TriggerEvent` on `r1..r(k+1)`, in that
order, for some `k < n`, and the records after them are still queued. -/
theorem Tick_FIFO (m : Manager) (depth : Nat) (hq : m.noQueue)
    (s0 : State) (h0 : s0.m_eventQueue = []) (rs : List EventData) :
    (rs.foldl (fun s r => QueueEvent m r s) s0).m_eventQueue = rs ∧
      (∀ bound, rs.length ≤ bound →
        Tick m depth bound (rs.foldl (fun s r => QueueEvent m r s) s0) =
          Tick m depth rs.length (rs.foldl (fun s r => QueueEvent m r s) s0)) ∧
      (Tick m depth rs.length (rs.foldl (fun s r => QueueEvent m r s) s0) = Result.diverge →
        ∃ r ∈ rs, ∃ u, TriggerEvent m depth r u = Result.diverge) ∧
      (∀ bound t,
        Tick m depth bound (rs.foldl (fun s r => QueueEvent m r s) s0) = Result.ok () t →
          t.m_eventQueue = [] ∧
          ∃ new, t.log = (rs.foldl (fun s r => QueueEvent m r s) s0).log ++ new ∧
            topCalls s0.frames.length new =
              rs.map fun r => LogEntry.call r s0.frames.length) ∧
      ∀ bound t,
        Tick m depth bound (rs.foldl (fun s r => QueueEvent m r s) s0) = Result.thrown t →
          ∃ k, k < rs.length ∧ t.m_eventQueue = rs.drop (k + 1) ∧
            ∃ new, t.log = (rs.foldl (fun s r => QueueEvent m r s) s0).log ++ new ∧
              topCalls s0.frames.length new =
                (rs.take (k + 1)).map fun r => LogEntry.call r s0.frames.length := by
  obtain ⟨hqueue, hframes⟩ := foldl_QueueEvent m rs s0
  rw [h0, List.nil_append] at hqueue
  obtain ⟨h1, h2⟩ := Tick_turns m depth hq rs _ hqueue
  refine ⟨hqueue, h1, h2, ?_, ?_⟩
  · intro bound t ht
    obtain ⟨hte, _, new, hl, hc⟩ := Tick_noQueue m depth hq bound _ t ht
    rw [hframes, hqueue] at hc
    exact ⟨hte, new, hl, hc⟩
  · intro bound t ht
    obtain ⟨k, hk, htq, new, hl, hc⟩ := Tick_noQueue_thrown m depth hq bound _ t ht
    rw [hqueue] at hk htq
    rw [hframes, hqueue] at hc
    exact ⟨k, hk, htq, new, hl, hc⟩

/-- C3, amended, at `"a"` and `"b"` queued on the fresh manager `exReset`:
the `Tick` returns, having called `TriggerEvent` on `"a"`, then on `"b"`. -/
theorem Tick_FIFO_witness :
    Tick exReset 1 2 ([exA, exB].foldl (fun s r => QueueEvent exReset r s) State.init) =
        Result.ok () exResetDrained ∧
      ([exA, exB].foldl (fun s r => QueueEvent exReset r s) State.init).m_eventQueue =
        [exA, exB] ∧
      exResetDrained.m_eventQueue = [] ∧
      ∃ new, exResetDrained.log =
          ([exA, exB].foldl (fun s r => QueueEvent exReset r s) State.init).log ++ new ∧
        topCalls State.init.frames.length new =
          [exA, exB].map fun r => LogEntry.call r State.init.frames.length :=
  ⟨by decide,
    (Tick_FIFO exReset 1 (by simp [Manager.noQueue, exReset, setTo, Prog.noQueue])
      State.init rfl [exA, exB]).1,
    (Tick_FIFO exReset 1 (by simp [Manager.noQueue, exReset, setTo, Prog.noQueue])
      State.init rfl [exA, exB]).2.2.2.1 2 exResetDrained (by decide)⟩

/-! ## Lifecycle events -/

/-- C8: the start handler appends to the manager's queue exactly two events,
first `onServerResourceStart` (server build) or `onClientResourceStart`
(client build), then `onResourceStart`; both carry the same payload, the
packed one-element array holding the resource name, and an empty source. The
stop handler does the same with `Stop` for `Start`. Unpacking the payload
gives back the one-element array with the name (names shorter than `2^32`
characters, the limit of the str 32 header). -/
theorem lifecycle_events (IS_FXSERVER : Bool) (m : Manager) (name : String) (s : State) :
    (OnStart IS_FXSERVER m name s).m_eventQueue =
        s.m_eventQueue ++
          [⟨if IS_FXSERVER then "onServerResourceStart" else "onClientResourceStart",
              lifecyclePayload name, ""⟩,
            ⟨"onResourceStart", lifecyclePayload name, ""⟩] ∧
      (OnStop IS_FXSERVER m name s).m_eventQueue =
        s.m_eventQueue ++
          [⟨if IS_FXSERVER then "onServerResourceStop" else "onClientResourceStop",
              lifecyclePayload name, ""⟩,
            ⟨"onResourceStop", lifecyclePayload name, ""⟩] ∧
      (name.length < 4294967296 → unpack (lifecyclePayload name) = some [name]) := by
  refine ⟨?_, ?_, unpack_lifecyclePayload name⟩ <;> cases IS_FXSERVER <;>
    simp [OnStart, OnStop, IsServer, QueueEvent, OnQueueEvent]

/-- C8 at the resource `chat` in a server build. -/
theorem lifecycle_events_witness :
    (OnStart true exMixed "chat" State.init).m_eventQueue =
        [⟨"onServerResourceStart", lifecyclePayload "chat", ""⟩,
          ⟨"onResourceStart", lifecyclePayload "chat", ""⟩] ∧
      (lifecyclePayload "chat").data.map Char.toNat = [0x91, 0xa4, 99, 104, 97, 116] ∧
      unpack (lifecyclePayload "chat") = some ["chat"] :=
  ⟨(lifecycle_events true exMixed "chat" State.init).1, by decide,
    (lifecycle_events true exMixed "chat" State.init).2.2 (by decide)⟩

/-! ## Resources without an event component -/

/-- C10: a resource without an event component makes `TriggerEvent` write a
`trace` line and nothing else: up to those lines the outcome of the call
(return or failure, returned value, `m_wasLastEventCanceled`, the listeners
invoked and everything they did) is that of the same call on the manager whose
resource list has the component-less resources removed. -/
theorem TriggerEvent_skips_missing_component (m : Manager) (fuel : Nat) (ev : EventData)
    (s : State) :
    (TriggerEvent m fuel ev s).quiet = (TriggerEvent m.withoutMissing fuel ev s).quiet :=
  TriggerEvent_quiet m fuel ev s s rfl

/-! ## No listeners; last write wins -/

theorem ForAllResources_noListeners (m : Manager) (trigger : EventData → State → Result Bool)
    (ev : EventData) (p : Nat) (rs : List Resource)
    (h : ∀ r ∈ rs, ∀ c, r.eventComponent = some c → c.OnTriggerEvent = []) :
    ∀ s : State, ∃ lines,
      ForAllResources m trigger ev p rs s =
        Result.ok () { s with console := s.console ++ lines } := by
  induction rs with
  | nil => intro s; exact ⟨[], by simp [ForAllResources]⟩
  | cons r rs ih =>
    intro s
    have hrs := ih fun x hx => h x (List.mem_cons_of_mem _ hx)
    cases hc : r.eventComponent with
    | none =>
      obtain ⟨lines, hl⟩ := hrs
        { s with console :=
            s.console ++ ["no event component for resource " ++ c_str r.name ++ "\n"] }
      refine ⟨["no event component for resource " ++ c_str r.name ++ "\n"] ++ lines, ?_⟩
      simp only [ForAllResources, hc, hl, List.append_assoc]
    | some c =>
      obtain ⟨lines, hl⟩ := hrs s
      refine ⟨lines, ?_⟩
      simp only [ForAllResources, hc, HandleTriggerEvent, h r (List.mem_cons_self _ _) c hc,
        OnTriggerEvent, hl]

theorem lastWrite_of_no_write (p : Nat) (l : List LogEntry) (v : Bool)
    (h : ∀ c, LogEntry.write p c ∉ l) : lastWrite p l v = v := by
  induction l generalizing v with
  | nil => rfl
  | cons e es ih =>
    have hes : ∀ c, LogEntry.write p c ∉ es := fun c hx => h c (List.mem_cons_of_mem _ hx)
    cases e with
    | write q b =>
      have hq : q ≠ p := fun hx => h b (hx ▸ List.mem_cons_self _ _)
      simpa only [lastWrite, hq, if_false] using ih v hes
    | call _ _ => simpa only [lastWrite] using ih v hes
    | invoke _ _ _ => simpa only [lastWrite] using ih v hes
    | notify _ _ _ => simpa only [lastWrite] using ih v hes

/-- C11: with no trigger listener connected, globally or in any resource
(any number of resources, with or without event component), `TriggerEvent`
returns, returns `true`, and leaves `m_wasLastEventCanceled` at `false`; the
cancellation stack, the flags and the queues are as before. -/
theorem TriggerEvent_noListeners (m : Manager) (h : m.noListeners) (fuel : Nat)
    (ev : EventData) (s : State) :
    ∃ lines, TriggerEvent m (fuel + 1) ev s =
      Result.ok true
        { s with m_wasLastEventCanceled := false,
                 log := s.log ++ [LogEntry.call ev s.frames.length],
                 console := s.console ++ lines } := by
  obtain ⟨lines, hl⟩ := ForAllResources_noListeners m (TriggerEvent m fuel) ev s.frames.length
    m.resources h.2
    { s with frames := s.frames ++ [false],
             m_eventCancelationStack := s.frames.length :: s.m_eventCancelationStack,
             log := s.log ++ [LogEntry.call ev s.frames.length] }
  refine ⟨lines, ?_⟩
  simp only [TriggerEvent, h.1, OnTriggerEvent, hl]
  simp

/-- C11 at `exSilent`, called inside a running dispatch. -/
theorem TriggerEvent_noListeners_witness :
    ∃ lines, TriggerEvent exSilent (0 + 1) exEvent State.inDispatch =
      Result.ok true
        { State.inDispatch with
            m_wasLastEventCanceled := false,
            log := State.inDispatch.log ++ [LogEntry.call exEvent State.inDispatch.frames.length],
            console := State.inDispatch.console ++ lines } :=
  TriggerEvent_noListeners exSilent (by simp [Manager.noListeners, exSilent]) 0 exEvent
    State.inDispatch

/-- C15: the value `TriggerEvent` returns is the negation of the last value
any listener wrote to the flag of the call, in dispatch order, and
`m_wasLastEventCanceled` is that value; if no listener wrote, the call returns
`true` and the slot holds `false`. -/
theorem TriggerEvent_last_write_wins (m : Manager) (fuel : Nat) (ev : EventData)
    (s : State) (b : Bool) (t : State) (h : TriggerEvent m fuel ev s = Result.ok b t) :
    ∃ new, t.log = s.log ++ LogEntry.call ev s.frames.length :: new ∧
      (∀ pre v post, new = pre ++ LogEntry.write s.frames.length v :: post →
        (∀ c, LogEntry.write s.frames.length c ∉ post) →
          b = !v ∧ t.m_wasLastEventCanceled = v) ∧
      ((∀ c, LogEntry.write s.frames.length c ∉ new) →
        b = true ∧ t.m_wasLastEventCanceled = false) := by
  have hs := TriggerEvent_spec m fuel ev s
  rw [h] at hs
  obtain ⟨_, _, hw, new, hl, _, hb, _, _⟩ := hs
  refine ⟨new, hl, ?_, ?_⟩
  · intro pre v post hnew hpost
    have hv : lastWrite s.frames.length new false = v := by
      rw [hnew, lastWrite_append]
      simp only [lastWrite, if_true]
      exact lastWrite_of_no_write _ _ _ hpost
    rw [hw, hb, hv, Bool.not_not]
    exact ⟨rfl, rfl⟩
  · intro hnone
    have hv : lastWrite s.frames.length new false = false :=
      lastWrite_of_no_write _ _ _ hnone
    rw [hw, hb, hv]
    exact ⟨rfl, rfl⟩

/-- C15 at `exReset`: the global listener sets the flag to `true`, the
listener of resource `a` sets it back to `false`; `TriggerEvent` returns
`true` and `m_wasLastEventCanceled` is `false`. -/
theorem TriggerEvent_last_write_wins_witness :
    TriggerEvent exReset 1 exEvent State.init = Result.ok true exResetFinal ∧
      exResetFinal.m_wasLastEventCanceled = false ∧
      ∃ new, exResetFinal.log = State.init.log ++ LogEntry.call exEvent 0 :: new ∧
        (∀ pre v post, new = pre ++ LogEntry.write 0 v :: post →
          (∀ c, LogEntry.write 0 c ∉ post) →
            true = !v ∧ exResetFinal.m_wasLastEventCanceled = v) ∧
        ((∀ c, LogEntry.write 0 c ∉ new) →
          true = true ∧ exResetFinal.m_wasLastEventCanceled = false) :=
  ⟨by decide, by decide,
    TriggerEvent_last_write_wins exReset 1 exEvent State.init true exResetFinal (by decide)⟩

/-! ## Draining the global queue -/

/-- C14 as stated fails, in both halves. In `exRequeueFailing` a listener
queues every event it handles again and a later listener fails: `Tick`,
started with `"a"` in the queue, ends in its first turn with that failure. In
`exFailingOnA` no listener enqueues and the listener fails on `"a"`: `Tick`,
started with `"c"`, `"a"`, `"b"` in the queue, ends after two `TriggerEvent`
calls, with `"b"` still queued. -/
theorem Tick_ended_by_failure :
    exRequeueFailing.requeues ∧
      Tick exRequeueFailing 1 5 (State.queued [exA]) =
        Result.thrown
          { State.init with
              m_eventQueue := [exA],
              m_eventCancelationStack := [0],
              log := [LogEntry.call exA 0, LogEntry.invoke (ListenerId.global 0) exA 0,
                LogEntry.invoke (ListenerId.resource "a" 0) exA 0,
                LogEntry.invoke (ListenerId.resource "b" 0) exA 0],
              console := ["queue event a\n"],
              queueCalls := [QueueCall.manager exA] } ∧
      exFailingOnA.noQueue ∧
      Tick exFailingOnA 1 5 (State.queued [exC, exA, exB]) =
        Result.thrown
          { State.init with
              m_eventQueue := [exB],
              m_eventCancelationStack := [0],
              log := [LogEntry.call exC 0, LogEntry.invoke (ListenerId.global 0) exC 0,
                LogEntry.call exA 0, LogEntry.invoke (ListenerId.global 0) exA 0] } := by
  refine ⟨?_, by decide, ⟨?_, ?_⟩, by decide⟩
  · exact Or.inr ⟨⟨"a", some ⟨[requeue]⟩⟩, by simp [exRequeueFailing], ⟨[requeue]⟩, rfl,
      requeue, by simp, fun _ => rfl⟩
  · intro l hl ev
    simp only [exFailingOnA, List.mem_singleton] at hl
    subst hl
    unfold failingOn
    split <;> rfl
  · intro r hr
    simp [exFailingOnA] at hr

/-- C14, amended. If some trigger listener calls the manager's `QueueEvent`
for every event it handles and the global queue is not empty, `Tick` never
returns normally, and after every number `k` of turns of its loop that
complete the queue is still not empty, so that the loop is not finished after
`k` turns. If no listener enqueues, the loop of `Tick` needs no more turns than
there were records in the queue at entry (with more turns allowed the outcome
is the same) and fails to produce an outcome only if one of its `TriggerEvent`
calls does; when `Tick` returns normally the queue is empty and `Tick` has made
exactly as many `TriggerEvent` calls itself as there were records at entry. -/
theorem Tick_starvation (m : Manager) (depth : Nat) (s : State) :
    (m.requeues → s.m_eventQueue ≠ [] →
        (∀ bound t, Tick m depth bound s ≠ Result.ok () t) ∧
        ∀ k t, TickTurns m depth k s = Result.ok () t →
          t.m_eventQueue ≠ [] ∧ Tick m depth k s = Result.diverge) ∧
      (m.noQueue →
        (∀ bound, s.m_eventQueue.length ≤ bound →
          Tick m depth bound s = Tick m depth s.m_eventQueue.length s) ∧
        (Tick m depth s.m_eventQueue.length s = Result.diverge →
          ∃ r ∈ s.m_eventQueue, ∃ u, TriggerEvent m depth r u = Result.diverge) ∧
        ∀ bound t, Tick m depth bound s = Result.ok () t →
          t.m_eventQueue = [] ∧
          ∃ new, t.log = s.log ++ new ∧
            (topCalls s.frames.length new).length = s.m_eventQueue.length) := by
  refine ⟨fun hre hne => ⟨fun bound t => Tick_never_returns m depth hre bound s t hne,
    fun k t ht => ?_⟩, fun hq => ?_⟩
  · have hne2 := TickTurns_requeues m depth hre k s t hne ht
    refine ⟨hne2, ?_⟩
    rw [Tick_eq_TickTurns, ht]
    cases hq : t.m_eventQueue with
    | nil => exact absurd hq hne2
    | cons ev rest => simp only [hq]
  · obtain ⟨h1, h2⟩ := Tick_turns m depth hq s.m_eventQueue s rfl
    refine ⟨h1, h2, fun bound t ht => ?_⟩
    obtain ⟨hte, _, new, hl, hc⟩ := Tick_noQueue m depth hq bound s t ht
    exact ⟨hte, new, hl, by rw [hc, List.length_map]⟩

/-- C14, amended, at `exRequeue` (a listener of resource `a` queues every
event it handles again) with one record queued: after two turns `"a"` is in
the queue again; and at `exReset` (nobody enqueues) with two records queued:
two turns, two calls. -/
theorem Tick_starvation_witness :
    ((∀ bound t, Tick exRequeue 1 bound (State.queued [exA]) ≠ Result.ok () t) ∧
      TickTurns exRequeue 1 2 (State.queued [exA]) = Result.ok () exRequeueTwoTurns ∧
      exRequeueTwoTurns.m_eventQueue ≠ [] ∧
      Tick exRequeue 1 2 (State.queued [exA]) = Result.diverge) ∧
      (∀ bound,
        ([exA, exB].foldl (fun s r => QueueEvent exReset r s) State.init).m_eventQueue.length ≤
            bound →
          Tick exReset 1 bound ([exA, exB].foldl (fun s r => QueueEvent exReset r s) State.init) =
            Tick exReset 1
              ([exA, exB].foldl (fun s r => QueueEvent exReset r s) State.init).m_eventQueue.length
              ([exA, exB].foldl (fun s r => QueueEvent exReset r s) State.init)) ∧
      exResetDrained.m_eventQueue = [] ∧
      ∃ new, exResetDrained.log =
          ([exA, exB].foldl (fun s r => QueueEvent exReset r s) State.init).log ++ new ∧
        (topCalls
            ([exA, exB].foldl (fun s r => QueueEvent exReset r s) State.init).frames.length
            new).length =
          ([exA, exB].foldl (fun s r => QueueEvent exReset r s) State.init).m_eventQueue.length :=
  ⟨⟨((Tick_starvation exRequeue 1 (State.queued [exA])).1
        (by simp [Manager.requeues, exRequeue, requeue, Prog.enqueues]) (by decide)).1,
      by decide,
      (((Tick_starvation exRequeue 1 (State.queued [exA])).1
        (by simp [Manager.requeues, exRequeue, requeue, Prog.enqueues]) (by decide)).2
        2 exRequeueTwoTurns (by decide)).1,
      (((Tick_starvation exRequeue 1 (State.queued [exA])).1
        (by simp [Manager.requeues, exRequeue, requeue, Prog.enqueues]) (by decide)).2
        2 exRequeueTwoTurns (by decide)).2⟩,
    ((Tick_starvation exReset 1
        ([exA, exB].foldl (fun s r => QueueEvent exReset r s) State.init)).2
      (by simp [Manager.noQueue, exReset, setTo, Prog.noQueue])).1,
    ((Tick_starvation exReset 1
        ([exA, exB].foldl (fun s r => QueueEvent exReset r s) State.init)).2
      (by simp [Manager.noQueue, exReset, setTo, Prog.noQueue])).2.2 2 exResetDrained
      (by decide)⟩

/-! ## The resource tick and the local queue -/

end fx
